import Mathlib

/-!
Verification of the quiz-generation backend (`main.py`): the model-fallback
requester `request_ai` and the three text parsers `parse_questions`,
`parse_true_false_binary` and `parse_open_questions`.

Python strings are modelled as `List Char`.  The two regular expressions in
the source are modelled by a small backtracking matcher over an explicit
pattern AST (`RE`): literal pieces, greedy `\s*` (longest first, giving back
one character at a time), lazy DOTALL `(.*?)` (shortest first), the capturing
single-character classes `(\d)` and `(1|0)`.  `re.findall` is modelled by
scanning positions left to right and continuing after each match, exactly as
the Python engine does for these patterns.  Character classes follow Python's
Unicode definitions (`str.isspace`, `str.splitlines` boundaries); the digit
class is restricted to ASCII digits, the only ones relevant here.
All definitions are structurally recursive so that they evaluate inside the
kernel.
-/

/-- Model of a Python `str`: a list of characters. -/
abbrev Str := List Char

/-- Python whitespace (`str.isspace`, also the `\s` class of `re` on `str`). -/
def isPySpace (c : Char) : Bool :=
  c.toNat ∈ [9, 10, 11, 12, 13, 28, 29, 30, 31, 32, 133, 160, 5760,
    8192, 8193, 8194, 8195, 8196, 8197, 8198, 8199, 8200, 8201, 8202,
    8232, 8233, 8239, 8287, 12288]

/-- ASCII digit, the relevant part of the `\d` class. -/
def isPyDigit (c : Char) : Bool :=
  48 ≤ c.toNat && c.toNat ≤ 57

/-- Line boundaries of Python `str.splitlines` (`\r\n` is handled separately). -/
def isLineBreak (c : Char) : Bool :=
  c.toNat ∈ [10, 11, 12, 13, 28, 29, 30, 133, 8232, 8233]

/-- `isPfx w s` holds when `w` is a prefix of `s`. -/
def isPfx : Str → Str → Bool
  | [], _ => true
  | _ :: _, [] => false
  | a :: as, b :: bs => a == b && isPfx as bs

/-- `containsSub sep s`: `sep` occurs somewhere in `s` (Python `sep in s`). -/
def containsSub (sep : Str) : Str → Bool
  | [] => isPfx sep []
  | c :: rest => isPfx sep (c :: rest) || containsSub sep rest

/-- Number of positions of `s` at which `sep` occurs. -/
def countOccAll (sep : Str) : Str → Nat
  | [] => 0
  | c :: rest => (if isPfx sep (c :: rest) then 1 else 0) + countOccAll sep rest

/-- Number of non-whitespace characters of a string. -/
def countNonWs (l : Str) : Nat := (l.filter (fun c => !isPySpace c)).length

/-- Remove a leading run of Python whitespace. -/
def dropLeadWs (l : Str) : Str := l.dropWhile isPySpace

/-- Remove a trailing run of Python whitespace. -/
def dropTrailWs (l : Str) : Str := (l.reverse.dropWhile isPySpace).reverse

/-- Python `str.strip()`. -/
def pyStrip (l : Str) : Str := dropTrailWs (dropLeadWs l)

/-- Locate the first occurrence of `sep` in the string: `some (before, after)`
splits around that occurrence, `none` means no occurrence (for nonempty `sep`).
This is the single step of Python `str.split(sep)`. -/
def findSplit (sep : Str) : Str → Option (Str × Str)
  | [] => none
  | c :: rest =>
    if isPfx sep (c :: rest) then some ([], rest.drop (sep.length - 1))
    else
      match findSplit sep rest with
      | some (b, a) => some (c :: b, a)
      | none => none

/-- Python `str.split(sep)` for a nonempty separator, with explicit fuel to
keep the recursion structural; `pySplit` instantiates the fuel with the
length of the string, which is always enough. -/
def pySplitF (sep : Str) : Nat → Str → List Str
  | 0, s => [s]
  | fuel + 1, s =>
    match findSplit sep s with
    | some (b, a) => b :: pySplitF sep fuel a
    | none => [s]

/-- Python `str.split(sep)` for a nonempty separator. -/
def pySplit (sep : Str) (s : Str) : List Str := pySplitF sep s.length s

/-- The substring of `s` before the first occurrence of `sep` (the whole of
`s` when `sep` does not occur).  Stated from the specification's words for
the open-question parser, to be compared with `split(sep)[0]`. -/
def beforeFirst (sep : Str) : Str → Str
  | [] => []
  | c :: rest => if isPfx sep (c :: rest) then [] else c :: beforeFirst sep rest

/-- Python `str.splitlines` worker; `acc` is the current line, reversed. -/
def splitlinesGo (acc : Str) : Str → List Str
  | [] => if acc = [] then [] else [acc.reverse]
  | '\r' :: '\n' :: rest => acc.reverse :: splitlinesGo [] rest
  | c :: rest =>
    if isLineBreak c then acc.reverse :: splitlinesGo [] rest
    else splitlinesGo (c :: acc) rest

/-- Python `str.splitlines()`. -/
def splitlines (s : Str) : List Str := splitlinesGo [] s

/-- Pattern elements of the two regular expressions in the source:
literal text, greedy `\s*`, lazy capturing `(.*?)` under `re.DOTALL`,
capturing `(\d)` and capturing `(1|0)`. -/
inductive RE where
  | lit : Str → RE
  | wsStar : RE
  | lazyStar : RE
  | digitGroup : RE
  | binGroup : RE
deriving DecidableEq

/-- Strip `w` from the front of `s`, if it is a prefix. -/
def stripPfx (w s : Str) : Option Str :=
  if isPfx w s then some (s.drop w.length) else none

/-- Greedy `\s*` before continuation `k`: the first argument is the still
consumed part of the leading whitespace run (reversed); on failure of the
continuation one character is given back at a time, exactly the backtracking
behaviour of a greedy star. -/
def wsGiveK (k : Str → Option (List Str × Str)) : Str → Str → Option (List Str × Str)
  | [], s => k s
  | c :: con', s =>
    match k s with
    | some res => some res
    | none => wsGiveK k con' (c :: s)

/-- Lazy `(.*?)` before continuation `k`: try the shortest expansion first,
growing one character at a time; `acc` is the text captured so far, reversed. -/
def lazyTryK (k : Str → Option (List Str × Str)) : Str → Str → Option (List Str × Str)
  | acc, [] =>
    match k [] with
    | some (caps, r) => some (acc.reverse :: caps, r)
    | none => none
  | acc, c :: s' =>
    match k (c :: s') with
    | some (caps, r) => some (acc.reverse :: caps, r)
    | none => lazyTryK k (c :: acc) s'

/-- Match one pattern element in continuation style. -/
def reStep (e : RE) (k : Str → Option (List Str × Str)) (s : Str) : Option (List Str × Str) :=
  match e with
  | .lit w =>
    match stripPfx w s with
    | some s' => k s'
    | none => none
  | .wsStar => wsGiveK k ((s.takeWhile isPySpace).reverse) (s.dropWhile isPySpace)
  | .lazyStar => lazyTryK k [] s
  | .digitGroup =>
    match s with
    | c :: s' =>
      if isPyDigit c then
        match k s' with
        | some (caps, r) => some ([c] :: caps, r)
        | none => none
      else none
    | [] => none
  | .binGroup =>
    match s with
    | c :: s' =>
      if c == '1' || c == '0' then
        match k s' with
        | some (caps, r) => some ([c] :: caps, r)
        | none => none
      else none
    | [] => none

/-- Match a whole pattern at the start of `s`, returning the capture groups in
order and the remaining text. -/
def matchSeq : List RE → Str → Option (List Str × Str)
  | [] => fun s => some ([], s)
  | e :: rest => reStep e (matchSeq rest)

/-- `re.findall` worker: scan positions left to right; at a match, record the
groups and continue after the match (advancing one position on a hypothetical
empty match, as the Python scanner does).  The fuel keeps the recursion
structural; the initial fuel `s.length` is always sufficient. -/
def findAllGoF (pat : List RE) : Nat → Str → List (List Str)
  | _, [] =>
    match matchSeq pat [] with
    | some (caps, _) => [caps]
    | none => []
  | 0, _ :: _ => []
  | fuel + 1, c :: rest =>
    match matchSeq pat (c :: rest) with
    | some (caps, r) =>
      caps :: (if r.length ≤ rest.length then findAllGoF pat fuel r else findAllGoF pat fuel rest)
    | none => findAllGoF pat fuel rest

/-- `re.findall(pat, s)` returning the tuple of capture groups per match. -/
def reFindall (pat : List RE) (s : Str) : List (List Str) := findAllGoF pat s.length s

/-- `"Start:"`. -/
def startMarker : Str := ['S', 't', 'a', 'r', 't', ':']

/-- `"End:"`. -/
def endMarker : Str := ['E', 'n', 'd', ':']

/-- `"OptionsStart:"`. -/
def osMarker : Str := ['O', 'p', 't', 'i', 'o', 'n', 's', 'S', 't', 'a', 'r', 't', ':']

/-- `"OptionsEnd:"`. -/
def oeMarker : Str := ['O', 'p', 't', 'i', 'o', 'n', 's', 'E', 'n', 'd', ':']

/-- `"answerStart:"`. -/
def asMarker : Str := ['a', 'n', 's', 'w', 'e', 'r', 'S', 't', 'a', 'r', 't', ':']

/-- `"answerEnd:"`. -/
def aeMarker : Str := ['a', 'n', 's', 'w', 'e', 'r', 'E', 'n', 'd', ':']

/-- The regex of `parse_questions`:
`Start:\s*(.*?)\s*End:\s*OptionsStart:\s*(.*?)\s*(\d)\s*OptionsEnd:` with `re.DOTALL`. -/
def mcqPattern : List RE :=
  [RE.lit startMarker, RE.wsStar, RE.lazyStar, RE.wsStar, RE.lit endMarker, RE.wsStar,
   RE.lit osMarker, RE.wsStar, RE.lazyStar, RE.wsStar, RE.digitGroup, RE.wsStar,
   RE.lit oeMarker]

/-- The regex of `parse_true_false_binary`:
`Start:\s*(.*?)\s*End:\s*answerStart:\s*(1|0)\s*answerEnd:` with `re.DOTALL`. -/
def tfPattern : List RE :=
  [RE.lit startMarker, RE.wsStar, RE.lazyStar, RE.wsStar, RE.lit endMarker, RE.wsStar,
   RE.lit asMarker, RE.wsStar, RE.binGroup, RE.wsStar, RE.lit aeMarker]

/-- `int` of the one-character string captured by `(\d)` or `(1|0)`. -/
def digitVal (c : Char) : Nat := c.toNat - 48

/-- `int` applied to a captured group (always a single digit here). -/
def capDigitVal : Str → Nat
  | [c] => digitVal c
  | _ => 0

/-- The decimal digit character for `n ≤ 9`. -/
def digitChar : Nat → Char
  | 0 => '0'
  | 1 => '1'
  | 2 => '2'
  | 3 => '3'
  | 4 => '4'
  | 5 => '5'
  | 6 => '6'
  | 7 => '7'
  | 8 => '8'
  | 9 => '9'
  | _ => '0'

/-- One multiple-choice question as produced by `parse_questions`. -/
structure MCQuestion where
  question : Str
  options : List Str
  correctOptionIndex : Nat
deriving DecidableEq

/-- One true/false question as produced by `parse_true_false_binary`. -/
structure TFQuestion where
  question : Str
  answer : Nat
deriving DecidableEq

/-- `parse_questions` from `main.py`: run the multiple-choice regex, strip the
question and options captures, split the options into nonempty trimmed lines,
drop the candidate unless exactly 4 lines remain, and map the trailing digit
as-is to `correctOptionIndex`. -/
def parse_questions (text : Str) : List MCQuestion :=
  (reFindall mcqPattern text).filterMap fun caps =>
    match caps with
    | [qc, oc, dc] =>
      let question_text := pyStrip qc
      let options_text := pyStrip oc
      let correct_index := capDigitVal dc
      let options := (splitlines options_text).filterMap fun opt =>
        if pyStrip opt = [] then none else some (pyStrip opt)
      if options.length = 4 then
        some { question := question_text, options := options, correctOptionIndex := correct_index }
      else none
    | _ => none

/-- `parse_true_false_binary` from `main.py`: run the true/false regex and emit
one record per match with the stripped question and the integer answer. -/
def parse_true_false_binary (raw_text : Str) : List TFQuestion :=
  (reFindall tfPattern raw_text).filterMap fun caps =>
    match caps with
    | [qc, ac] => some { question := pyStrip qc, answer := capDigitVal ac }
    | _ => none

/-- `parse_open_questions` from `main.py`: split on `Start:` and, for every
fragment after the first, take the part before the first `End:` (via
`split("End:")[0]`) and strip it.  The `except IndexError` branch in the
source is dead code: `split` never returns an empty list, so the `[0]`
indexing never raises; `headD` with an arbitrary default models it. -/
def parse_open_questions (raw_text : Str) : List Str :=
  ((pySplit startMarker raw_text).drop 1).map fun part =>
    pyStrip ((pySplit endMarker part).headD [])

/-- The hardcoded model list `top_models` of `main.py`. -/
def top_models : List String :=
  ["gpt-4",
   "gpt-4.1",
   "gpt-4.1-mini",
   "gpt-4.1-nano",
   "gpt-4.5",
   "deepseek-v3",
   "deepseek-r1",
   "deepseek-r1-turbo",
   "deepseek-v3-0324",
   "deepseek-v3-0324-turbo",
   "deepseek-r1-0528",
   "deepseek-r1-0528-turbo",
   "deepseek-r1-distill-llama-70b",
   "deepseek-r1-distill-qwen-14b",
   "deepseek-r1-distill-qwen-32b",
   "grok-3",
   "grok-3-r1"]

/-- Outcome of one chat-completion call: content and elapsed seconds on
success, or a timeout (`asyncio.TimeoutError`), or any other exception. -/
inductive CallOutcome where
  | success : Str → Nat → CallOutcome
  | timeout : CallOutcome
  | failure : CallOutcome
deriving DecidableEq

/-- Whether a call outcome is a success. -/
def CallOutcome.isSuccess : CallOutcome → Bool
  | .success _ _ => true
  | _ => false

/-- The dictionary returned by `request_ai`. -/
structure ModelResult where
  model : Option String
  content : Str
  time : Option Nat
deriving DecidableEq

/-- The sentinel content `"Brak odpowiedzi od żadnego modelu."`. -/
def sentinelContent : Str := ("Brak odpowiedzi od żadnego modelu.").toList

/-- Fallback loop of `request_ai` over a list of models, also recording the
models actually called, in order.  Success returns the stripped content and
stops; timeout and any other failure continue with the next model. -/
def request_ai_go (call : String → CallOutcome) : List String → ModelResult × List String
  | [] => ({ model := none, content := sentinelContent, time := none }, [])
  | m :: rest =>
    match call m with
    | .success content elapsed =>
      ({ model := some m, content := pyStrip content, time := some elapsed }, [m])
    | _ =>
      let p := request_ai_go call rest
      (p.1, m :: p.2)

/-- `request_ai` from `main.py`, abstracted over the external client: `call`
gives the outcome of the single attempt for a prompt and a model.  Returns the
result dictionary together with the trace of models called. -/
def request_ai (call : String → String → CallOutcome) (prompt : String) :
    ModelResult × List String :=
  request_ai_go (call prompt) top_models

/-- Join option lines with `\n`, as in the well-formed model output format. -/
def joinLines : List Str → Str
  | [] => []
  | [o] => o
  | o :: os => o ++ '\n' :: joinLines os

/-- Render one well-formed multiple-choice block in the exact template format
the prompt demands:
`Start: <question> End: OptionsStart: <options joined by newlines>\n<digit> OptionsEnd:`. -/
def renderMCQ (b : MCQuestion) : Str :=
  startMarker ++ ' ' :: b.question ++ ' ' :: endMarker ++ ' ' :: osMarker ++
    ' ' :: joinLines b.options ++ '\n' :: digitChar b.correctOptionIndex :: ' ' :: oeMarker

/-- Concatenation of rendered blocks. -/
def concatBlocks : List MCQuestion → Str
  | [] => []
  | b :: bs => renderMCQ b ++ concatBlocks bs

/-- The capture triple the multiple-choice regex produces for one rendered
well-formed block. -/
def mcqCaps (b : MCQuestion) : List Str :=
  [b.question, joinLines b.options, [digitChar b.correctOptionIndex]]

/-- A text field that round-trips through the template: nonempty, no leading
or trailing whitespace, and no occurrence of `End:` (which also rules out
`OptionsEnd:`). -/
def wfStr (l : Str) : Prop :=
  l ≠ [] ∧ isPySpace (l.headD ' ') = false ∧ isPySpace (l.getLastD ' ') = false ∧
    containsSub endMarker l = false

/-- A well-formed option line: a well-formed field on a single line. -/
def wfOption (l : Str) : Prop :=
  wfStr l ∧ ∀ x ∈ l, isLineBreak x = false

/-- A well-formed multiple-choice block: well-formed question, exactly 4
well-formed option lines, and a single-digit correct index. -/
def wfBlock (b : MCQuestion) : Prop :=
  wfStr b.question ∧ b.options.length = 4 ∧ (∀ o ∈ b.options, wfOption o) ∧
    b.correctOptionIndex ≤ 9

instance : DecidablePred wfStr := fun l => by
  unfold wfStr; infer_instance

instance : DecidablePred wfOption := fun l => by
  unfold wfOption; infer_instance

instance : DecidablePred wfBlock := fun b => by
  unfold wfBlock; infer_instance

/-! ### Prefix and substring lemmas -/

theorem isPfx_append_self (w t : Str) : isPfx w (w ++ t) = true := by
  induction w with
  | nil => rfl
  | cons a as ih => simp [isPfx, ih]

theorem isPfx_nil_of_ne {w : Str} (h : w ≠ []) : isPfx w [] = false := by
  cases w with
  | nil => exact absurd rfl h
  | cons a as => rfl

theorem isPfx_iff {w s : Str} : isPfx w s = true ↔ ∃ t, s = w ++ t := by
  induction w generalizing s with
  | nil => simp [isPfx]
  | cons a as ih =>
    cases s with
    | nil =>
      simp only [isPfx, Bool.false_eq_true, false_iff]
      rintro ⟨t, ht⟩
      exact absurd ht (by simp)
    | cons c cs =>
      simp only [isPfx, Bool.and_eq_true, beq_iff_eq, ih, List.cons_append, List.cons.injEq]
      constructor
      · rintro ⟨rfl, t, rfl⟩; exact ⟨t, rfl, rfl⟩
      · rintro ⟨t, rfl, rfl⟩; exact ⟨rfl, t, rfl⟩

theorem isPfx_append_mono {w x : Str} (y : Str) (h : isPfx w x = true) :
    isPfx w (x ++ y) = true := by
  obtain ⟨t, rfl⟩ := isPfx_iff.mp h
  rw [List.append_assoc]
  exact isPfx_append_self w (t ++ y)

theorem isPfx_of_append_left {w x y : Str} (h : isPfx w (x ++ y) = true)
    (hl : w.length ≤ x.length) : isPfx w x = true := by
  induction w generalizing x with
  | nil => rfl
  | cons a as ih =>
    cases x with
    | nil => simp at hl
    | cons b bs =>
      simp only [List.cons_append, isPfx, Bool.and_eq_true] at h ⊢
      exact ⟨h.1, ih h.2 (by simpa using Nat.le_of_succ_le_succ (by simpa using hl))⟩

theorem isPfx_through {w x : Str} {ch : Char} {r : Str}
    (h : isPfx w (x ++ ch :: r) = true) (hl : x.length < w.length) : ch ∈ w := by
  induction x generalizing w with
  | nil =>
    cases w with
    | nil => simp at hl
    | cons a as =>
      simp only [List.nil_append, isPfx, Bool.and_eq_true, beq_iff_eq] at h
      simp [h.1]
  | cons b bs ih =>
    cases w with
    | nil => simp at hl
    | cons a as =>
      simp only [List.cons_append, isPfx, Bool.and_eq_true] at h
      have := ih h.2 (by simpa using Nat.lt_of_succ_lt_succ (by simpa using hl))
      simp [this]

theorem containsSub_nil_left (s : Str) : containsSub [] s = true := by
  cases s <;> simp [containsSub, isPfx]

theorem containsSub_of_isPfx {sep s : Str} (h : isPfx sep s = true) :
    containsSub sep s = true := by
  cases s with
  | nil => simpa [containsSub] using h
  | cons c rest => simp [containsSub, h]

theorem containsSub_cons_of {sep r : Str} (c : Char) (h : containsSub sep r = true) :
    containsSub sep (c :: r) = true := by
  simp [containsSub, h]

theorem containsSub_iff {sep s : Str} :
    containsSub sep s = true ↔ ∃ k, isPfx sep (s.drop k) = true := by
  induction s with
  | nil =>
    simp only [containsSub, List.drop_nil]
    exact ⟨fun h => ⟨0, h⟩, fun ⟨_, h⟩ => h⟩
  | cons c rest ih =>
    simp only [containsSub, Bool.or_eq_true, ih]
    constructor
    · rintro (h | ⟨k, hk⟩)
      · exact ⟨0, h⟩
      · exact ⟨k + 1, hk⟩
    · rintro ⟨k, hk⟩
      cases k with
      | zero => exact Or.inl hk
      | succ k => exact Or.inr ⟨k, hk⟩

theorem containsSub_append_right {sep y : Str} (x : Str) (h : containsSub sep y = true) :
    containsSub sep (x ++ y) = true := by
  induction x with
  | nil => simpa
  | cons c cs ih => exact containsSub_cons_of c ih

theorem containsSub_append_left {sep x : Str} (y : Str) (h : containsSub sep x = true) :
    containsSub sep (x ++ y) = true := by
  obtain ⟨k, hk⟩ := containsSub_iff.mp h
  rcases Nat.le_total k x.length with hle | hge
  · refine containsSub_iff.mpr ⟨k, ?_⟩
    rw [List.drop_append_eq_append_drop, Nat.sub_eq_zero_of_le hle, List.drop_zero]
    exact isPfx_append_mono y hk
  · rcases Nat.eq_or_lt_of_le hge with heq | hlt
    · rw [← heq, List.drop_length] at hk
      cases sep with
      | nil => exact containsSub_nil_left _
      | cons a as => simp [isPfx] at hk
    · rw [List.drop_of_length_le (Nat.le_of_lt hlt)] at hk
      cases sep with
      | nil => exact containsSub_nil_left _
      | cons a as => simp [isPfx] at hk

theorem containsSub_drop {sep s : Str} {k : Nat} (h : containsSub sep (s.drop k) = true) :
    containsSub sep s = true := by
  have := containsSub_append_right (s.take k) h
  rwa [List.take_append_drop] at this

theorem containsSub_trans {w v s : Str} (hvs : containsSub v s = true)
    (hwv : containsSub w v = true) : containsSub w s = true := by
  obtain ⟨k, hk⟩ := containsSub_iff.mp hvs
  obtain ⟨t, ht⟩ := isPfx_iff.mp hk
  exact containsSub_drop (k := k) (ht ▸ containsSub_append_left t hwv)

theorem containsSub_append_cons {sep x y : Str} {ch : Char}
    (h : containsSub sep (x ++ ch :: y) = true) (hch : ch ∉ sep) :
    containsSub sep x = true ∨ containsSub sep y = true := by
  induction x with
  | nil =>
    simp only [List.nil_append, containsSub, Bool.or_eq_true] at h
    rcases h with h | h
    · cases sep with
      | nil => exact Or.inl (containsSub_nil_left _)
      | cons a as =>
        simp only [isPfx, Bool.and_eq_true, beq_iff_eq] at h
        exact absurd (by simp [h.1]) hch
    · exact Or.inr h
  | cons b bs ih =>
    simp only [List.cons_append, containsSub, Bool.or_eq_true] at h
    rcases h with h | h
    · rcases Nat.le_total sep.length (b :: bs).length with hle | hge
      · exact Or.inl (containsSub_of_isPfx
          (isPfx_of_append_left (by simpa using h) hle))
      · rcases Nat.eq_or_lt_of_le hge with heq | hlt
        · exact Or.inl (containsSub_of_isPfx
            (isPfx_of_append_left (by simpa using h) (Nat.le_of_eq heq.symm)))
        · exact absurd (isPfx_through (by simpa using h) hlt) hch
    · rcases ih h with h' | h'
      · exact Or.inl (containsSub_cons_of b h')
      · exact Or.inr h'

theorem countOccAll_of_not_contains {sep s : Str} (h : containsSub sep s = false) :
    countOccAll sep s = 0 := by
  induction s with
  | nil => rfl
  | cons c rest ih =>
    simp only [containsSub, Bool.or_eq_false_iff] at h
    simp [countOccAll, h.1, ih h.2]

theorem countOccAll_append_of_no_isPfx {sep b t : Str}
    (hb : ∀ k, k < b.length → isPfx sep ((b ++ t).drop k) = false) :
    countOccAll sep (b ++ t) = countOccAll sep t := by
  induction b with
  | nil => rfl
  | cons c bs ih =>
    have h0 := hb 0 (by simp)
    simp only [List.drop_zero, List.cons_append] at h0
    have ih' := ih (fun k hk => by
      have := hb (k + 1) (by simpa using Nat.succ_lt_succ hk)
      simpa using this)
    simp [countOccAll, h0, ih']

/-! ### Stripping lemmas -/

theorem dropLeadWs_eq_self {l : Str} (h : isPySpace (l.headD ' ') = false) :
    dropLeadWs l = l := by
  cases l with
  | nil => rfl
  | cons c rest =>
    simp only [List.headD_cons] at h
    simp [dropLeadWs, List.dropWhile_cons, h]

theorem dropTrailWs_eq_self {l : Str} (h : isPySpace (l.getLastD ' ') = false) :
    dropTrailWs l = l := by
  rcases List.eq_nil_or_concat l with rfl | ⟨u, z, rfl⟩
  · rfl
  · have hz : isPySpace z = false := by simpa [List.getLastD_concat] using h
    simp [dropTrailWs, List.reverse_append, List.dropWhile_cons, hz]

theorem pyStrip_eq_self {l : Str} (h1 : isPySpace (l.headD ' ') = false)
    (h2 : isPySpace (l.getLastD ' ') = false) : pyStrip l = l := by
  unfold pyStrip
  rw [dropLeadWs_eq_self h1, dropTrailWs_eq_self h2]

theorem dropTrailWs_append_takeWhile (l : Str) :
    dropTrailWs l ++ (l.reverse.takeWhile isPySpace).reverse = l := by
  conv_rhs => rw [← List.reverse_reverse l,
    ← List.takeWhile_append_dropWhile (p := isPySpace) (l := l.reverse)]
  rw [List.reverse_append]
  rfl

theorem containsSub_dropWhile {w l : Str} {p : Char → Bool}
    (h : containsSub w (l.dropWhile p) = true) : containsSub w l = true := by
  induction l with
  | nil => simpa using h
  | cons c rest ih =>
    rw [List.dropWhile_cons] at h
    by_cases hp : p c = true
    · simp only [hp, if_true] at h
      exact containsSub_cons_of c (ih h)
    · simp only [hp, if_false] at h
      exact h

theorem containsSub_pyStrip {w l : Str} (h : containsSub w (pyStrip l) = true) :
    containsSub w l = true := by
  unfold pyStrip at h
  have h1 : containsSub w (dropLeadWs l) = true := by
    have h2 := containsSub_append_left
      (((dropLeadWs l).reverse.takeWhile isPySpace).reverse) h
    rwa [dropTrailWs_append_takeWhile] at h2
  exact containsSub_dropWhile h1

theorem getLastD_mem_drop {l : Str} {k : Nat} (d : Char) (hk : k < l.length) :
    l.getLastD d ∈ l.drop k := by
  rcases List.eq_nil_or_concat l with rfl | ⟨u, z, hl⟩
  · simp at hk
  · rw [List.concat_eq_append] at hl
    subst hl
    have hk' : k ≤ u.length := by
      simp only [List.length_append, List.length_cons, List.length_nil] at hk
      omega
    rw [List.getLastD_concat, List.drop_append_eq_append_drop,
      Nat.sub_eq_zero_of_le hk', List.drop_zero]
    exact List.mem_append_right _ (by simp)

theorem countNonWs_append (x y : Str) :
    countNonWs (x ++ y) = countNonWs x + countNonWs y := by
  simp [countNonWs, List.filter_append]

theorem countNonWs_eq_zero {a : Str} (h : ∀ x ∈ a, isPySpace x = true) :
    countNonWs a = 0 := by
  simp only [countNonWs, List.length_eq_zero, List.filter_eq_nil_iff]
  intro x hx
  simp [h x hx]

theorem countNonWs_pos {l : Str} {x : Char} (hx : x ∈ l) (h : isPySpace x = false) :
    1 ≤ countNonWs l := by
  have hm : x ∈ l.filter (fun c => !isPySpace c) := List.mem_filter.mpr ⟨hx, by simp [h]⟩
  have := List.length_pos_of_mem hm
  simpa [countNonWs] using this

theorem countNonWs_cons (c : Char) (l : Str) :
    countNonWs (c :: l) = (if isPySpace c then 0 else 1) + countNonWs l := by
  simp only [countNonWs, List.filter_cons]
  cases h : isPySpace c <;> simp [Nat.add_comm]

/-! ### Python split lemmas -/

theorem findSplit_some_length {sep s b a : Str} (h : findSplit sep s = some (b, a)) :
    a.length < s.length := by
  induction s generalizing b a with
  | nil => simp [findSplit] at h
  | cons c rest ih =>
    cases hp : isPfx sep (c :: rest) with
    | true =>
      simp only [findSplit, hp, if_true, Option.some.injEq, Prod.mk.injEq] at h
      rw [← h.2]
      simp only [List.length_drop, List.length_cons]
      omega
    | false =>
      simp only [findSplit, hp, Bool.false_eq_true, if_false] at h
      cases hf : findSplit sep rest with
      | none => rw [hf] at h; exact absurd h (by simp)
      | some p =>
        obtain ⟨b', a'⟩ := p
        rw [hf] at h
        simp only [Option.some.injEq, Prod.mk.injEq] at h
        have := ih hf
        rw [← h.2]
        simp only [List.length_cons]
        omega

theorem findSplit_some_eq {sep s b a : Str} (hsep : sep ≠ [])
    (h : findSplit sep s = some (b, a)) : s = b ++ sep ++ a := by
  induction s generalizing b a with
  | nil => simp [findSplit] at h
  | cons c rest ih =>
    cases hp : isPfx sep (c :: rest) with
    | true =>
      simp only [findSplit, hp, if_true, Option.some.injEq, Prod.mk.injEq] at h
      obtain ⟨t, ht⟩ := isPfx_iff.mp hp
      obtain ⟨n, w, hnw⟩ := List.exists_cons_of_ne_nil hsep
      subst hnw
      rw [List.cons_append] at ht
      injection ht with h1 h2
      have hdrop : rest.drop ((n :: w).length - 1) = t := by
        simp only [List.length_cons, Nat.add_sub_cancel]
        rw [h2, List.drop_left]
      rw [← h.1, ← h.2, hdrop, List.nil_append, List.cons_append, h1, h2]
    | false =>
      simp only [findSplit, hp, Bool.false_eq_true, if_false] at h
      cases hf : findSplit sep rest with
      | none => rw [hf] at h; exact absurd h (by simp)
      | some p =>
        obtain ⟨b', a'⟩ := p
        rw [hf] at h
        simp only [Option.some.injEq, Prod.mk.injEq] at h
        rw [← h.1, ← h.2]
        simp [ih hf]

theorem findSplit_prior {sep s b a : Str} (h : findSplit sep s = some (b, a)) :
    ∀ k, k < b.length → isPfx sep (s.drop k) = false := by
  induction s generalizing b a with
  | nil => simp [findSplit] at h
  | cons c rest ih =>
    cases hp : isPfx sep (c :: rest) with
    | true =>
      simp only [findSplit, hp, if_true, Option.some.injEq, Prod.mk.injEq] at h
      rw [← h.1]
      intro k hk
      simp at hk
    | false =>
      simp only [findSplit, hp, Bool.false_eq_true, if_false] at h
      cases hf : findSplit sep rest with
      | none => rw [hf] at h; exact absurd h (by simp)
      | some p =>
        obtain ⟨b', a'⟩ := p
        rw [hf] at h
        simp only [Option.some.injEq, Prod.mk.injEq] at h
        rw [← h.1]
        intro k hk
        cases k with
        | zero => simpa using hp
        | succ k =>
          rw [List.drop_succ_cons]
          exact ih hf k (by simpa using Nat.lt_of_succ_lt_succ hk)

theorem findSplit_some_not_contains {sep s b a : Str} (hsep : sep ≠ [])
    (h : findSplit sep s = some (b, a)) : containsSub sep b = false := by
  cases hcs : containsSub sep b with
  | false => rfl
  | true =>
    exfalso
    obtain ⟨k, hk⟩ := containsSub_iff.mp hcs
    rcases Nat.lt_or_ge k b.length with hlt | hge
    · have heq := findSplit_some_eq hsep h
      have : isPfx sep (s.drop k) = true := by
        rw [heq, List.append_assoc, List.drop_append_eq_append_drop,
          Nat.sub_eq_zero_of_le (Nat.le_of_lt hlt), List.drop_zero]
        exact isPfx_append_mono _ hk
      rw [findSplit_prior h k hlt] at this
      exact absurd this (by simp)
    · rw [List.drop_of_length_le hge] at hk
      rw [isPfx_nil_of_ne hsep] at hk
      exact absurd hk (by simp)

theorem findSplit_some_contains {sep s : Str} {p : Str × Str}
    (h : findSplit sep s = some p) : containsSub sep s = true := by
  induction s generalizing p with
  | nil => simp [findSplit] at h
  | cons c rest ih =>
    cases hp : isPfx sep (c :: rest) with
    | true => simp [containsSub, hp]
    | false =>
      simp only [findSplit, hp, Bool.false_eq_true, if_false] at h
      cases hf : findSplit sep rest with
      | none => rw [hf] at h; exact absurd h (by simp)
      | some q => exact containsSub_cons_of c (ih hf)

theorem findSplit_none_contains {sep s : Str} (hsep : sep ≠ [])
    (h : findSplit sep s = none) : containsSub sep s = false := by
  induction s with
  | nil => simpa [containsSub] using isPfx_nil_of_ne hsep
  | cons c rest ih =>
    cases hp : isPfx sep (c :: rest) with
    | true => simp [findSplit, hp] at h
    | false =>
      simp only [findSplit, hp, Bool.false_eq_true, if_false] at h
      cases hf : findSplit sep rest with
      | some q => rw [hf] at h; exact absurd h (by simp)
      | none => simp [containsSub, hp, ih hf]

theorem findSplit_none_of_not_contains {sep s : Str} (h : containsSub sep s = false) :
    findSplit sep s = none := by
  cases hf : findSplit sep s with
  | none => rfl
  | some p => rw [findSplit_some_contains hf] at h; exact absurd h (by simp)

theorem beforeFirst_of_some {sep s b a : Str} (h : findSplit sep s = some (b, a)) :
    beforeFirst sep s = b := by
  induction s generalizing b a with
  | nil => simp [findSplit] at h
  | cons c rest ih =>
    cases hp : isPfx sep (c :: rest) with
    | true =>
      simp only [findSplit, hp, if_true, Option.some.injEq, Prod.mk.injEq] at h
      rw [beforeFirst, if_pos hp, h.1]
    | false =>
      simp only [findSplit, hp, Bool.false_eq_true, if_false] at h
      cases hf : findSplit sep rest with
      | none => rw [hf] at h; exact absurd h (by simp)
      | some p =>
        obtain ⟨b', a'⟩ := p
        rw [hf] at h
        simp only [Option.some.injEq, Prod.mk.injEq] at h
        rw [beforeFirst, if_neg (by simp [hp]), ih hf, h.1]

theorem beforeFirst_of_none {sep s : Str} (h : findSplit sep s = none) :
    beforeFirst sep s = s := by
  induction s with
  | nil => rfl
  | cons c rest ih =>
    cases hp : isPfx sep (c :: rest) with
    | true => simp [findSplit, hp] at h
    | false =>
      simp only [findSplit, hp, Bool.false_eq_true, if_false] at h
      cases hf : findSplit sep rest with
      | some q => rw [hf] at h; exact absurd h (by simp)
      | none => rw [beforeFirst, if_neg (by simp [hp]), ih hf]

theorem pySplitF_ne_nil (sep : Str) (fuel : Nat) (s : Str) : pySplitF sep fuel s ≠ [] := by
  cases fuel with
  | zero => simp [pySplitF]
  | succ fuel =>
    rw [pySplitF]
    cases findSplit sep s with
    | none => simp
    | some p => obtain ⟨b, a⟩ := p; simp

theorem pySplitF_headD {sep s : Str} {fuel : Nat} (hfuel : s.length ≤ fuel) :
    (pySplitF sep fuel s).headD [] = beforeFirst sep s := by
  cases fuel with
  | zero =>
    have : s = [] := List.length_eq_zero.mp (Nat.le_zero.mp hfuel)
    subst this
    rfl
  | succ fuel =>
    rw [pySplitF]
    cases hf : findSplit sep s with
    | none => simpa using (beforeFirst_of_none hf).symm
    | some p =>
      obtain ⟨b, a⟩ := p
      simpa using (beforeFirst_of_some hf).symm

theorem pySplitF_pieces {sep : Str} (hsep : sep ≠ []) :
    ∀ fuel s, s.length ≤ fuel → ∀ piece ∈ pySplitF sep fuel s,
      containsSub sep piece = false := by
  intro fuel
  induction fuel with
  | zero =>
    intro s hs piece hmem
    have : s = [] := List.length_eq_zero.mp (Nat.le_zero.mp hs)
    subst this
    simp only [pySplitF, List.mem_singleton] at hmem
    subst hmem
    simpa [containsSub] using isPfx_nil_of_ne hsep
  | succ fuel ih =>
    intro s hs piece hmem
    rw [pySplitF] at hmem
    cases hf : findSplit sep s with
    | none =>
      rw [hf] at hmem
      simp only [List.mem_singleton] at hmem
      subst hmem
      exact findSplit_none_contains hsep hf
    | some p =>
      obtain ⟨b, a⟩ := p
      rw [hf] at hmem
      simp only [List.mem_cons] at hmem
      rcases hmem with rfl | hmem
      · exact findSplit_some_not_contains hsep hf
      · have hlen : a.length ≤ fuel :=
          Nat.le_of_lt_succ (Nat.lt_of_lt_of_le (findSplit_some_length hf) hs)
        exact ih a hlen piece hmem

theorem countOccAll_startM (t : Str) :
    countOccAll startMarker (startMarker ++ t) = 1 + countOccAll startMarker t := by
  simp only [startMarker, List.cons_append, List.nil_append]
  simp [countOccAll, isPfx, isPfx_append_self]

theorem pySplitF_count :
    ∀ fuel s, s.length ≤ fuel →
      (pySplitF startMarker fuel s).length = countOccAll startMarker s + 1 := by
  intro fuel
  induction fuel with
  | zero =>
    intro s hs
    have : s = [] := List.length_eq_zero.mp (Nat.le_zero.mp hs)
    subst this
    rfl
  | succ fuel ih =>
    intro s hs
    rw [pySplitF]
    cases hf : findSplit startMarker s with
    | none =>
      rw [countOccAll_of_not_contains (findSplit_none_contains (by decide) hf)]
      rfl
    | some p =>
      obtain ⟨b, a⟩ := p
      have heq := findSplit_some_eq (by decide) hf
      have hlen : a.length ≤ fuel :=
        Nat.le_of_lt_succ (Nat.lt_of_lt_of_le (findSplit_some_length hf) hs)
      have hcount : countOccAll startMarker s = 1 + countOccAll startMarker a := by
        rw [heq, List.append_assoc]
        rw [countOccAll_append_of_no_isPfx (fun k hk => by
          have := findSplit_prior hf k hk
          rwa [heq, List.append_assoc] at this)]
        exact countOccAll_startM a
      simp only [List.length_cons, ih a hlen, hcount]
      omega

/-! ### splitlines lemmas -/

theorem splitlinesGo_cons_break {c : Char} (acc rest : Str) (hc : isLineBreak c = true)
    (hr : c ≠ '\r') : splitlinesGo acc (c :: rest) = acc.reverse :: splitlinesGo [] rest := by
  rw [splitlinesGo.eq_3 acc c rest (fun rest' h1 _ => hr h1)]
  simp [hc]

theorem splitlinesGo_cons_not_break {c : Char} (acc rest : Str)
    (hc : isLineBreak c = false) : splitlinesGo acc (c :: rest) = splitlinesGo (c :: acc) rest := by
  have hr : c ≠ '\r' := by
    intro e
    rw [e] at hc
    exact absurd hc (by decide)
  rw [splitlinesGo.eq_3 acc c rest (fun rest' h1 _ => hr h1)]
  simp [hc]

theorem splitlinesGo_join {x : Str} (y acc : Str) (hx : ∀ ch ∈ x, isLineBreak ch = false) :
    splitlinesGo acc (x ++ '\n' :: y) = (acc.reverse ++ x) :: splitlinesGo [] y := by
  induction x generalizing acc with
  | nil =>
    rw [List.nil_append, splitlinesGo_cons_break acc y (by decide) (by decide)]
    simp
  | cons b bs ih =>
    have hb := hx b (by simp)
    rw [List.cons_append, splitlinesGo_cons_not_break acc (bs ++ '\n' :: y) hb,
      ih (b :: acc) (fun ch hch => hx ch (List.mem_cons_of_mem b hch))]
    simp

theorem splitlinesGo_no_break {l : Str} (acc : Str) (hl : ∀ ch ∈ l, isLineBreak ch = false)
    (hne : acc.reverse ++ l ≠ []) : splitlinesGo acc l = [acc.reverse ++ l] := by
  induction l generalizing acc with
  | nil =>
    have hacc : acc ≠ [] := by
      intro e
      subst e
      exact hne rfl
    rw [splitlinesGo]
    simp [hacc]
  | cons c rest ih =>
    have hc := hl c (by simp)
    rw [splitlinesGo_cons_not_break acc rest hc,
      ih (c :: acc) (fun ch hch => hl ch (by simp [hch])) (by simp)]
    simp

/-! ### Matcher lemmas -/

theorem stripPfx_eq_some {w s s' : Str} : stripPfx w s = some s' ↔ s = w ++ s' := by
  unfold stripPfx
  constructor
  · intro h
    cases hp : isPfx w s with
    | false => rw [hp] at h; exact absurd h (by simp)
    | true =>
      rw [hp] at h
      simp only [if_true, Option.some.injEq] at h
      obtain ⟨t, rfl⟩ := isPfx_iff.mp hp
      rw [← h, List.drop_left]
  · rintro rfl
    rw [if_pos (isPfx_append_self w s'), List.drop_left]

theorem stripPfx_eq_none {w s : Str} : stripPfx w s = none ↔ isPfx w s = false := by
  unfold stripPfx
  cases hp : isPfx w s <;> simp

theorem matchSeq_nil (s : Str) : matchSeq [] s = some ([], s) := rfl

theorem matchSeq_cons (e : RE) (rest : List RE) (s : Str) :
    matchSeq (e :: rest) s = reStep e (matchSeq rest) s := rfl

theorem reStep_lit_iff {w : Str} {k : Str → Option (List Str × Str)} {s : Str}
    {res : List Str × Str} :
    reStep (.lit w) k s = some res ↔ ∃ s', s = w ++ s' ∧ k s' = some res := by
  simp only [reStep]
  cases hs : stripPfx w s with
  | some s0 =>
    have h0 := stripPfx_eq_some.mp hs
    constructor
    · intro h
      exact ⟨s0, h0, h⟩
    · rintro ⟨s', hs', hk⟩
      have : s0 = s' := List.append_cancel_left (h0 ▸ hs')
      rw [this]
      exact hk
  | none =>
    constructor
    · intro h
      exact absurd h (by simp)
    · rintro ⟨s', rfl, hk⟩
      rw [stripPfx_eq_some.mpr rfl] at hs
      exact absurd hs (by simp)

theorem wsGiveK_eq_some {k : Str → Option (List Str × Str)} :
    ∀ {con s : Str} {res : List Str × Str},
      (∀ x ∈ con, isPySpace x = true) → wsGiveK k con s = some res →
      ∃ a s', con.reverse ++ s = a ++ s' ∧ (∀ x ∈ a, isPySpace x = true) ∧
        k s' = some res := by
  intro con
  induction con with
  | nil =>
    intro s res _ h
    exact ⟨[], s, by simp, by simp, h⟩
  | cons c con' ih =>
    intro s res hws h
    cases hk : k s with
    | some r =>
      simp only [wsGiveK, hk] at h
      refine ⟨(c :: con').reverse, s, rfl, ?_, ?_⟩
      · intro x hx
        exact hws x (List.mem_reverse.mp hx)
      · rw [hk, h]
    | none =>
      simp only [wsGiveK, hk] at h
      obtain ⟨a, s', heq, hs, hks⟩ := ih (fun x hx => hws x (by simp [hx])) h
      refine ⟨a, s', ?_, hs, hks⟩
      rw [← heq]
      simp

theorem reStep_ws_inv {k : Str → Option (List Str × Str)} {s : Str} {res : List Str × Str}
    (h : reStep .wsStar k s = some res) :
    ∃ a s', s = a ++ s' ∧ (∀ x ∈ a, isPySpace x = true) ∧ k s' = some res := by
  simp only [reStep] at h
  have hws : ∀ x ∈ (s.takeWhile isPySpace).reverse, isPySpace x = true := by
    intro x hx
    exact List.mem_takeWhile_imp (List.mem_reverse.mp hx)
  obtain ⟨a, s', heq, hs, hks⟩ := wsGiveK_eq_some hws h
  rw [List.reverse_reverse, List.takeWhile_append_dropWhile] at heq
  exact ⟨a, s', heq, hs, hks⟩

theorem wsGiveK_first {k : Str → Option (List Str × Str)} {s : Str} {res : List Str × Str}
    (con : Str) (h : k s = some res) : wsGiveK k con s = some res := by
  cases con with
  | nil => exact h
  | cons c con' => rw [wsGiveK, h]

theorem reStep_ws_construct {k : Str → Option (List Str × Str)} {s : Str}
    {res : List Str × Str} (h : k (s.dropWhile isPySpace) = some res) :
    reStep .wsStar k s = some res := by
  simp only [reStep]
  exact wsGiveK_first _ h

theorem lazyTryK_eq_some {k : Str → Option (List Str × Str)} :
    ∀ {s acc : Str} {caps : List Str} {r : Str}, lazyTryK k acc s = some (caps, r) →
      ∃ j caps', j ≤ s.length ∧ k (s.drop j) = some (caps', r) ∧
        caps = (acc.reverse ++ s.take j) :: caps' := by
  intro s
  induction s with
  | nil =>
    intro acc caps r h
    cases hk : k [] with
    | none =>
      simp only [lazyTryK, hk] at h
      exact absurd h (by simp)
    | some p =>
      obtain ⟨caps0, r0⟩ := p
      simp only [lazyTryK, hk, Option.some.injEq, Prod.mk.injEq] at h
      exact ⟨0, caps0, by simp, by simp [hk, h.2], by simp [← h.1]⟩
  | cons c s' ih =>
    intro acc caps r h
    cases hk : k (c :: s') with
    | some p =>
      obtain ⟨caps0, r0⟩ := p
      simp only [lazyTryK, hk, Option.some.injEq, Prod.mk.injEq] at h
      exact ⟨0, caps0, by simp, by simp [hk, h.2], by simp [← h.1]⟩
    | none =>
      simp only [lazyTryK, hk] at h
      obtain ⟨j, caps', hj, hkd, hcaps⟩ := ih h
      refine ⟨j + 1, caps', by simpa using Nat.succ_le_succ hj, ?_, ?_⟩
      · simpa using hkd
      · rw [hcaps]
        simp

theorem lazyTryK_construct {k : Str → Option (List Str × Str)} :
    ∀ (J : Nat) {s acc : Str} {caps' : List Str} {r : Str}, J ≤ s.length →
      (∀ j, j < J → k (s.drop j) = none) → k (s.drop J) = some (caps', r) →
      lazyTryK k acc s = some ((acc.reverse ++ s.take J) :: caps', r) := by
  intro J
  induction J with
  | zero =>
    intro s acc caps' r _ _ hJ
    simp only [List.drop_zero] at hJ
    cases s with
    | nil => simp [lazyTryK, hJ]
    | cons c s' => simp [lazyTryK, hJ]
  | succ J ih =>
    intro s acc caps' r hle hnone hJ
    cases s with
    | nil => simp at hle
    | cons c s' =>
      have h0 : k (c :: s') = none := by simpa using hnone 0 (Nat.succ_pos J)
      simp only [lazyTryK, h0]
      have := @ih s' (c :: acc) caps' r
        (by simpa using Nat.le_of_succ_le_succ hle)
        (fun j hj => by simpa using hnone (j + 1) (Nat.succ_lt_succ hj))
        (by simpa using hJ)
      rw [this]
      simp

theorem reStep_lazy_inv {k : Str → Option (List Str × Str)} {s : Str} {caps : List Str}
    {r : Str} (h : reStep .lazyStar k s = some (caps, r)) :
    ∃ j caps', j ≤ s.length ∧ k (s.drop j) = some (caps', r) ∧
      caps = s.take j :: caps' := by
  simp only [reStep] at h
  obtain ⟨j, caps', hj, hk, hcaps⟩ := lazyTryK_eq_some h
  exact ⟨j, caps', hj, hk, by simpa using hcaps⟩

theorem reStep_lazy_construct {k : Str → Option (List Str × Str)} {s : Str}
    {caps' : List Str} {r : Str} (J : Nat) (hle : J ≤ s.length)
    (hnone : ∀ j, j < J → k (s.drop j) = none) (hJ : k (s.drop J) = some (caps', r)) :
    reStep .lazyStar k s = some (s.take J :: caps', r) := by
  simp only [reStep]
  have := @lazyTryK_construct k J s [] caps' r hle hnone hJ
  simpa using this

theorem reStep_digit_inv {k : Str → Option (List Str × Str)} {s : Str} {caps : List Str}
    {r : Str} (h : reStep .digitGroup k s = some (caps, r)) :
    ∃ c s' caps', s = c :: s' ∧ isPyDigit c = true ∧ k s' = some (caps', r) ∧
      caps = [c] :: caps' := by
  cases s with
  | nil => simp [reStep] at h
  | cons c s' =>
    cases hc : isPyDigit c with
    | false => simp [reStep, hc] at h
    | true =>
      cases hk : k s' with
      | none => simp [reStep, hc, hk] at h
      | some p =>
        obtain ⟨caps0, r0⟩ := p
        simp only [reStep, hc, if_true, hk, Option.some.injEq, Prod.mk.injEq] at h
        exact ⟨c, s', caps0, rfl, hc, by rw [hk, h.2], by rw [← h.1]⟩

theorem reStep_digit_construct {k : Str → Option (List Str × Str)} {s' : Str}
    {caps' : List Str} {r : Str} {c : Char} (hc : isPyDigit c = true)
    (hk : k s' = some (caps', r)) :
    reStep .digitGroup k (c :: s') = some ([c] :: caps', r) := by
  simp [reStep, hc, hk]

theorem reStep_bin_inv {k : Str → Option (List Str × Str)} {s : Str} {caps : List Str}
    {r : Str} (h : reStep .binGroup k s = some (caps, r)) :
    ∃ c s' caps', s = c :: s' ∧ (c = '1' ∨ c = '0') ∧ k s' = some (caps', r) ∧
      caps = [c] :: caps' := by
  cases s with
  | nil => simp [reStep] at h
  | cons c s' =>
    cases hc : (c == '1' || c == '0') with
    | false => simp [reStep, hc] at h
    | true =>
      cases hk : k s' with
      | none => simp [reStep, hc, hk] at h
      | some p =>
        obtain ⟨caps0, r0⟩ := p
        simp only [reStep, hc, if_true, hk, Option.some.injEq, Prod.mk.injEq] at h
        refine ⟨c, s', caps0, rfl, ?_, by rw [hk, h.2], by rw [← h.1]⟩
        simpa using hc

theorem findAllGoF_mem {pat : List RE} :
    ∀ {fuel : Nat} {s : Str} {caps : List Str}, caps ∈ findAllGoF pat fuel s →
      ∃ s' res, matchSeq pat s' = some (caps, res) := by
  intro fuel
  induction fuel with
  | zero =>
    intro s caps h
    cases s with
    | nil =>
      cases hm : matchSeq pat [] with
      | none => simp [findAllGoF, hm] at h
      | some p =>
        obtain ⟨caps0, r0⟩ := p
        simp only [findAllGoF, hm, List.mem_singleton] at h
        exact ⟨[], r0, by rw [hm, h]⟩
    | cons c rest => simp [findAllGoF] at h
  | succ fuel ih =>
    intro s caps h
    cases s with
    | nil =>
      cases hm : matchSeq pat [] with
      | none => simp [findAllGoF, hm] at h
      | some p =>
        obtain ⟨caps0, r0⟩ := p
        simp only [findAllGoF, hm, List.mem_singleton] at h
        exact ⟨[], r0, by rw [hm, h]⟩
    | cons c rest =>
      cases hm : matchSeq pat (c :: rest) with
      | none =>
        rw [findAllGoF, hm] at h
        exact ih h
      | some p =>
        obtain ⟨caps0, r0⟩ := p
        rw [findAllGoF, hm] at h
        rcases List.mem_cons.mp h with rfl | h'
        · exact ⟨c :: rest, r0, hm⟩
        · rcases Nat.decLe r0.length rest.length with hle | hle
          · rw [if_neg (by simpa using hle)] at h'
            exact ih h'
          · rw [if_pos (by simpa using hle)] at h'
            exact ih h'

theorem findAllGoF_nil_of_no_marker {w : Str} {rest : List RE} (hw : w ≠ []) :
    ∀ (fuel : Nat) (s : Str), containsSub w s = false →
      findAllGoF (.lit w :: rest) fuel s = [] := by
  have hnil : matchSeq (.lit w :: rest) [] = none := by
    rw [matchSeq_cons]
    simp only [reStep, stripPfx_eq_none.mpr (isPfx_nil_of_ne hw)]
  intro fuel
  induction fuel with
  | zero =>
    intro s hs
    cases s with
    | nil => simp [findAllGoF, hnil]
    | cons c r => simp [findAllGoF]
  | succ fuel ih =>
    intro s hs
    cases s with
    | nil => simp [findAllGoF, hnil]
    | cons c r =>
      simp only [containsSub, Bool.or_eq_false_iff] at hs
      have hm : matchSeq (.lit w :: rest) (c :: r) = none := by
        rw [matchSeq_cons]
        simp only [reStep, stripPfx_eq_none.mpr hs.1]
      rw [findAllGoF, hm]
      exact ih r hs.2

/-! ### Requester lemmas -/

theorem request_ai_go_success (call : String → CallOutcome) :
    ∀ (ms : List String) (k : Nat) (hk : k < ms.length) (c : Str) (e : Nat),
      call (ms.get ⟨k, hk⟩) = .success c e →
      (∀ i (hi : i < k), (call (ms.get ⟨i, Nat.lt_trans hi hk⟩)).isSuccess = false) →
      request_ai_go call ms =
        ({ model := some (ms.get ⟨k, hk⟩), content := pyStrip c, time := some e },
          ms.take (k + 1)) := by
  intro ms
  induction ms with
  | nil => intro k hk; simp at hk
  | cons m rest ih =>
    intro k hk c e hsucc hprev
    cases k with
    | zero =>
      have hsucc' : call m = CallOutcome.success c e := hsucc
      simp only [request_ai_go, hsucc']
      rfl
    | succ k =>
      have h0 : (call m).isSuccess = false := by
        have := hprev 0 (Nat.succ_pos k)
        simpa using this
      have hk' : k < rest.length := by simpa using Nat.lt_of_succ_lt_succ hk
      have hrec := ih k hk' c e (by simpa using hsucc)
        (fun i hi => by
          have := hprev (i + 1) (Nat.succ_lt_succ hi)
          simpa using this)
      cases hcm : call m with
      | success c' e' => rw [hcm] at h0; simp [CallOutcome.isSuccess] at h0
      | timeout =>
        simp only [request_ai_go, hcm, hrec]
        simp
      | failure =>
        simp only [request_ai_go, hcm, hrec]
        simp

theorem request_ai_go_all_fail (call : String → CallOutcome) :
    ∀ ms : List String, (∀ m ∈ ms, (call m).isSuccess = false) →
      request_ai_go call ms =
        ({ model := none, content := sentinelContent, time := none }, ms) := by
  intro ms
  induction ms with
  | nil => intro _; rfl
  | cons m rest ih =>
    intro h
    have h0 := h m (by simp)
    have hrec := ih (fun x hx => h x (by simp [hx]))
    cases hcm : call m with
    | success c' e' => rw [hcm] at h0; simp [CallOutcome.isSuccess] at h0
    | timeout => simp [request_ai_go, hcm, hrec]
    | failure => simp [request_ai_go, hcm, hrec]

/-! ### Claim theorems -/

/-- C1: for every prompt, `request_ai` tries the 17 models of `top_models`
strictly in declared order, each at most once, and stops at the first model
whose call succeeds: when the models before index `k` all fail and the model
at index `k` succeeds with `c` in `e` seconds, the call trace is exactly the
first `k + 1` models (each called once, as the trace has no duplicates) and
the result carries that model's identifier and the trimmed content. -/
theorem claim_C1_fallback_order (call : String → String → CallOutcome) (prompt : String)
    (k : Nat) (c : Str) (e : Nat) (hk : k < top_models.length)
    (hsucc : call prompt (top_models.get ⟨k, hk⟩) = .success c e)
    (hprev : ∀ i (hi : i < k),
      (call prompt (top_models.get ⟨i, Nat.lt_trans hi hk⟩)).isSuccess = false) :
    top_models.length = 17 ∧
    request_ai call prompt =
      ({ model := some (top_models.get ⟨k, hk⟩), content := pyStrip c, time := some e },
        top_models.take (k + 1)) ∧
    (top_models.take (k + 1)).Nodup := by
  refine ⟨rfl, ?_, ?_⟩
  · rw [request_ai]
    exact request_ai_go_success (call prompt) top_models k hk c e hsucc hprev
  · exact List.Nodup.sublist (List.take_sublist _ _) (by decide)

/-- C1 witness: with a client that succeeds only for `gpt-4.1-mini` (index 2),
exactly the first three models are called and the result carries
`gpt-4.1-mini` and the trimmed content. -/
theorem claim_C1_fallback_order_witness :
    top_models.length = 17 ∧
    request_ai
      (fun _ m => if m = "gpt-4.1-mini" then CallOutcome.success (" hi ").toList 5
        else CallOutcome.failure) "p" =
      ({ model := some (top_models.get ⟨2, by decide⟩),
         content := pyStrip (" hi ").toList, time := some 5 },
        top_models.take 3) ∧
    (top_models.take 3).Nodup :=
  claim_C1_fallback_order
    (fun _ m => if m = "gpt-4.1-mini" then CallOutcome.success (" hi ").toList 5
      else CallOutcome.failure) "p" 2 (" hi ").toList 5 (by decide)
    (by decide) (by decide)

theorem pySplitF_of_none {sep s : Str} (hf : findSplit sep s = none) :
    ∀ fuel, pySplitF sep fuel s = [s] := by
  intro fuel
  cases fuel with
  | zero => rfl
  | succ fuel => rw [pySplitF, hf]

/-- C2: if every model call fails or times out, `request_ai` returns the
sentinel record `{model := none, content := "Brak odpowiedzi od żadnego
modelu.", time := none}` (it never raises), and each of the three parsers
applied to that sentinel content returns the empty list. -/
theorem claim_C2_sentinel (call : String → String → CallOutcome) (prompt : String)
    (hfail : ∀ m ∈ top_models, (call prompt m).isSuccess = false) :
    (request_ai call prompt).1 =
      { model := none, content := sentinelContent, time := none } ∧
    parse_questions sentinelContent = [] ∧
    parse_true_false_binary sentinelContent = [] ∧
    parse_open_questions sentinelContent = [] := by
  refine ⟨?_, by decide, by decide, by decide⟩
  rw [request_ai, request_ai_go_all_fail (call prompt) top_models hfail]

/-- C2 witness: with a client that always times out, the sentinel record is
returned and all parsers yield empty lists on its content. -/
theorem claim_C2_sentinel_witness :
    (request_ai (fun _ _ => CallOutcome.timeout) "p").1 =
      { model := none, content := sentinelContent, time := none } ∧
    parse_questions sentinelContent = [] ∧
    parse_true_false_binary sentinelContent = [] ∧
    parse_open_questions sentinelContent = [] :=
  claim_C2_sentinel (fun _ _ => CallOutcome.timeout) "p" (by decide)

/-- C8: the three parsers are total functions of the input text (they never
raise), and on any text that contains neither a `Start:` nor an `End:` marker
each of them returns the empty sequence. -/
theorem claim_C8_no_markers (text : Str)
    (hs : containsSub startMarker text = false)
    (_he : containsSub endMarker text = false) :
    parse_questions text = [] ∧ parse_true_false_binary text = [] ∧
    parse_open_questions text = [] := by
  refine ⟨?_, ?_, ?_⟩
  · unfold parse_questions reFindall mcqPattern
    rw [findAllGoF_nil_of_no_marker (by decide) _ _ hs]
    rfl
  · unfold parse_true_false_binary reFindall tfPattern
    rw [findAllGoF_nil_of_no_marker (by decide) _ _ hs]
    rfl
  · unfold parse_open_questions
    rw [pySplit, pySplitF_of_none (findSplit_none_of_not_contains hs)]
    rfl

/-- C8 witness: on a concrete marker-free text all three parsers return
empty sequences. -/
theorem claim_C8_no_markers_witness :
    parse_questions ("hello world").toList = [] ∧
    parse_true_false_binary ("hello world").toList = [] ∧
    parse_open_questions ("hello world").toList = [] :=
  claim_C8_no_markers ("hello world").toList (by decide) (by decide)

/-- C9: `parse_open_questions` splits its input on the literal `Start:` and,
for every fragment after the first, emits the trimmed substring before the
first occurrence of `End:`; on `"Start: Q1 End: Start: Q2 End:"` it returns
`["Q1", "Q2"]`. -/
theorem claim_C9_open_split :
    (∀ raw : Str, parse_open_questions raw =
      ((pySplit startMarker raw).drop 1).map fun part =>
        pyStrip (beforeFirst endMarker part)) ∧
    parse_open_questions ("Start: Q1 End: Start: Q2 End:").toList =
      [['Q', '1'], ['Q', '2']] := by
  refine ⟨?_, by decide⟩
  intro raw
  unfold parse_open_questions
  refine List.map_congr_left ?_
  intro part _
  rw [pySplit, pySplitF_headD (Nat.le_refl _)]

/-- C10: `parse_open_questions` returns exactly one question per occurrence of
`Start:` in the text — no fragment is dropped, and the `IndexError` guard is
dead code because `split` never returns an empty list — and every returned
string contains neither `Start:` nor `End:`. -/
theorem claim_C10_open_counts (raw : Str) :
    (parse_open_questions raw).length = countOccAll startMarker raw ∧
    (∀ q ∈ parse_open_questions raw,
      containsSub startMarker q = false ∧ containsSub endMarker q = false) ∧
    (∀ part : Str, pySplit endMarker part ≠ []) := by
  refine ⟨?_, ?_, fun part => pySplitF_ne_nil _ _ _⟩
  · unfold parse_open_questions
    rw [List.length_map, List.length_drop, pySplit,
      pySplitF_count _ _ (Nat.le_refl _)]
    omega
  · intro q hq
    unfold parse_open_questions at hq
    obtain ⟨part, hpart, rfl⟩ := List.mem_map.mp hq
    have hpartmem : part ∈ pySplit startMarker raw := List.mem_of_mem_drop hpart
    have hnostart : containsSub startMarker part = false :=
      pySplitF_pieces (by decide) _ _ (Nat.le_refl _) part hpartmem
    rw [pySplit, pySplitF_headD (Nat.le_refl _)]
    have hhead : containsSub startMarker (beforeFirst endMarker part) = false ∧
        containsSub endMarker (beforeFirst endMarker part) = false := by
      cases hf : findSplit endMarker part with
      | none =>
        rw [beforeFirst_of_none hf]
        exact ⟨hnostart, findSplit_none_contains (by decide) hf⟩
      | some p =>
        obtain ⟨b, a⟩ := p
        rw [beforeFirst_of_some hf]
        constructor
        · cases hcs : containsSub startMarker b with
          | false => rfl
          | true =>
            exfalso
            have := containsSub_append_left (endMarker ++ a) hcs
            rw [← List.append_assoc, ← findSplit_some_eq (by decide) hf] at this
            rw [this] at hnostart
            exact absurd hnostart (by simp)
        · exact findSplit_some_not_contains (by decide) hf
    constructor
    · cases hcs : containsSub startMarker (pyStrip (beforeFirst endMarker part)) with
      | false => rfl
      | true => rw [containsSub_pyStrip hcs] at hhead; exact absurd hhead.1 (by simp)
    · cases hcs : containsSub endMarker (pyStrip (beforeFirst endMarker part)) with
      | false => rfl
      | true => rw [containsSub_pyStrip hcs] at hhead; exact absurd hhead.2 (by simp)

/-- C10 witness: on a concrete text with two `Start:` markers the count
matches and a returned question is marker-free. -/
theorem claim_C10_open_counts_witness :
    (parse_open_questions ("Start: a End: Start: b").toList).length =
      countOccAll startMarker ("Start: a End: Start: b").toList ∧
    (containsSub startMarker ['a'] = false ∧ containsSub endMarker ['a'] = false) :=
  ⟨(claim_C10_open_counts ("Start: a End: Start: b").toList).1,
    (claim_C10_open_counts ("Start: a End: Start: b").toList).2.1 ['a'] (by decide)⟩

/-- C3 counterexample: on `"Start: Q1"` the single fragment `" Q1"` contains
no `End:` marker, yet `parse_open_questions` does NOT skip it — it returns
`["Q1"]`, not `[]`, so a fragment without `End:` does contribute a question. -/
theorem claim_C3_counterexample :
    parse_open_questions ("Start: Q1").toList = [['Q', '1']] ∧
    (pySplit startMarker ("Start: Q1").toList).drop 1 = [(" Q1").toList] ∧
    containsSub endMarker (" Q1").toList = false := by
  decide

/-- C3 amended: a fragment produced by splitting on `Start:` that contains no
`End:` marker is not skipped; `split("End:")[0]` is then the whole fragment,
so the fragment contributes its own trimmed text as a question, and no error
is raised (the `IndexError` guard is dead code). -/
theorem claim_C3_no_end_fragment (raw part : Str)
    (hmem : part ∈ (pySplit startMarker raw).drop 1)
    (hend : containsSub endMarker part = false) :
    pyStrip part ∈ parse_open_questions raw := by
  unfold parse_open_questions
  refine List.mem_map.mpr ⟨part, hmem, ?_⟩
  rw [pySplit, pySplitF_headD (Nat.le_refl _),
    beforeFirst_of_none (findSplit_none_of_not_contains hend)]

/-- C3 amended witness: the `" Q1"` fragment of `"Start: Q1"` has no `End:`
and its trimmed text `"Q1"` is among the returned questions. -/
theorem claim_C3_no_end_fragment_witness :
    pyStrip ((" Q1").toList) ∈ parse_open_questions (("Start: Q1").toList) :=
  claim_C3_no_end_fragment ("Start: Q1").toList (" Q1").toList (by decide) (by decide)

/-- C6: `parse_questions` performs no bounds check on the trailing digit: a
well-formed 4-option block whose digit is `7` (outside 0–3) still yields a
record, with `correctOptionIndex = 7` taken as-is. -/
theorem claim_C6_no_bounds_check :
    parse_questions ("Start: Q1 End: OptionsStart: A\nB\nC\nD\n7 OptionsEnd:").toList =
      [{ question := ['Q', '1'], options := [['A'], ['B'], ['C'], ['D']],
         correctOptionIndex := 7 }] := by
  decide

/-- C5: every record emitted by `parse_questions` has exactly 4 nonempty
options; a matched block whose options split into a different count (for
example 3 lines) contributes zero records — no partial record, no error. -/
theorem claim_C5_four_options (text : Str) (r : MCQuestion)
    (hr : r ∈ parse_questions text) :
    (r.options.length = 4 ∧ ∀ o ∈ r.options, o ≠ []) ∧
    parse_questions ("Start: Q1 End: OptionsStart: A\nB\nC\n2 OptionsEnd:").toList
      = [] := by
  refine ⟨?_, by decide⟩
  unfold parse_questions at hr
  obtain ⟨caps, hcaps, hf⟩ := List.mem_filterMap.mp hr
  rcases caps with _ | ⟨qc, _ | ⟨oc, _ | ⟨dc, _ | ⟨x, rest⟩⟩⟩⟩
  · simp at hf
  · simp at hf
  · simp at hf
  · simp only at hf
    by_cases h4 : ((splitlines (pyStrip oc)).filterMap fun opt =>
        if pyStrip opt = [] then none else some (pyStrip opt)).length = 4
    · rw [if_pos h4] at hf
      obtain rfl := Option.some.inj hf
      refine ⟨h4, ?_⟩
      intro o ho
      obtain ⟨opt, _, hif⟩ := List.mem_filterMap.mp ho
      by_cases hempty : pyStrip opt = []
      · rw [if_pos hempty] at hif
        exact absurd hif (by simp)
      · rw [if_neg hempty] at hif
        obtain rfl := Option.some.inj hif
        exact hempty
    · rw [if_neg h4] at hf
      exact absurd hf (by simp)
  · simp at hf

/-- C5 witness: the record parsed from a concrete well-formed block has 4
nonempty options. -/
theorem claim_C5_four_options_witness :
    (([['A'], ['B'], ['C'], ['D']] : List Str).length = 4 ∧
      ∀ o ∈ ([['A'], ['B'], ['C'], ['D']] : List Str), o ≠ []) ∧
    parse_questions ("Start: Q1 End: OptionsStart: A\nB\nC\n2 OptionsEnd:").toList
      = [] :=
  claim_C5_four_options
    ("Start: Q1 End: OptionsStart: A\nB\nC\nD\n2 OptionsEnd:").toList
    { question := ['Q', '1'], options := [['A'], ['B'], ['C'], ['D']],
      correctOptionIndex := 2 } (by decide)

theorem tfPattern_caps_shape {s : Str} {caps : List Str} {res : Str}
    (h : matchSeq tfPattern s = some (caps, res)) :
    ∃ qc c, caps = [qc, [c]] ∧ (c = '1' ∨ c = '0') := by
  unfold tfPattern at h
  rw [matchSeq_cons] at h
  obtain ⟨s1, _, h1⟩ := reStep_lit_iff.mp h
  rw [matchSeq_cons] at h1
  obtain ⟨a1, s2, _, _, h2⟩ := reStep_ws_inv h1
  rw [matchSeq_cons] at h2
  obtain ⟨j, caps1, hj, h3, hcaps⟩ := reStep_lazy_inv h2
  rw [matchSeq_cons] at h3
  obtain ⟨a2, s3, _, _, h4⟩ := reStep_ws_inv h3
  rw [matchSeq_cons] at h4
  obtain ⟨s4, _, h5⟩ := reStep_lit_iff.mp h4
  rw [matchSeq_cons] at h5
  obtain ⟨a3, s5, _, _, h6⟩ := reStep_ws_inv h5
  rw [matchSeq_cons] at h6
  obtain ⟨s6, _, h7⟩ := reStep_lit_iff.mp h6
  rw [matchSeq_cons] at h7
  obtain ⟨a4, s7, _, _, h8⟩ := reStep_ws_inv h7
  rw [matchSeq_cons] at h8
  obtain ⟨c, s8, caps2, _, hc, h9, hcaps1⟩ := reStep_bin_inv h8
  rw [matchSeq_cons] at h9
  obtain ⟨a5, s9, _, _, h10⟩ := reStep_ws_inv h9
  rw [matchSeq_cons] at h10
  obtain ⟨s10, _, h11⟩ := reStep_lit_iff.mp h10
  rw [matchSeq_nil] at h11
  obtain ⟨hcaps2, _⟩ := Prod.mk.injEq .. ▸ Option.some.inj h11
  refine ⟨s2.take j, c, ?_, hc⟩
  rw [hcaps, hcaps1, ← hcaps2]

/-- C7: every record emitted by `parse_true_false_binary` carries the trimmed
question and an integer answer that is exactly 0 or 1 (the pattern itself only
accepts the digit `0` or `1`); on
`"Start: Is Earth round? End: answerStart: 1 answerEnd:"` it returns the
single record `{question := "Is Earth round?", answer := 1}`. -/
theorem claim_C7_true_false (raw : Str) (r : TFQuestion)
    (hr : r ∈ parse_true_false_binary raw) :
    (r.answer = 0 ∨ r.answer = 1) ∧
    parse_true_false_binary
        ("Start: Is Earth round? End: answerStart: 1 answerEnd:").toList =
      [{ question := ("Is Earth round?").toList, answer := 1 }] := by
  refine ⟨?_, by decide⟩
  unfold parse_true_false_binary at hr
  obtain ⟨caps, hcaps, hf⟩ := List.mem_filterMap.mp hr
  obtain ⟨s', res, hm⟩ := findAllGoF_mem hcaps
  obtain ⟨qc, c, rfl, hc⟩ := tfPattern_caps_shape hm
  simp only at hf
  obtain rfl := Option.some.inj hf
  rcases hc with rfl | rfl
  · right
    show capDigitVal ['1'] = 1
    decide
  · left
    show capDigitVal ['0'] = 0
    decide

/-- C7 witness: the concrete record parsed from the example block has answer
0 or 1. -/
theorem claim_C7_true_false_witness :
    (({ question := ("Is Earth round?").toList, answer := 1 } : TFQuestion).answer = 0 ∨
      ({ question := ("Is Earth round?").toList, answer := 1 } : TFQuestion).answer = 1) ∧
    parse_true_false_binary
        ("Start: Is Earth round? End: answerStart: 1 answerEnd:").toList =
      [{ question := ("Is Earth round?").toList, answer := 1 }] :=
  claim_C7_true_false
    ("Start: Is Earth round? End: answerStart: 1 answerEnd:").toList
    { question := ("Is Earth round?").toList, answer := 1 } (by decide)

/-! ### Well-formed block round-trip: supporting lemmas -/

theorem isPyDigit_not_space {c : Char} (h : isPyDigit c = true) : isPySpace c = false := by
  simp only [isPyDigit, Bool.and_eq_true, decide_eq_true_eq] at h
  simp only [isPySpace, List.mem_cons, List.not_mem_nil, or_false, decide_eq_false_iff_not]
  omega

theorem getLastD_irrel {l : Str} (h : l ≠ []) (d1 d2 : Char) :
    l.getLastD d1 = l.getLastD d2 := by
  cases l with
  | nil => exact absurd rfl h
  | cons c rest => rw [List.getLastD_cons, List.getLastD_cons]

theorem getLastD_append {x y : Str} (hy : y ≠ []) (d : Char) :
    (x ++ y).getLastD d = y.getLastD d := by
  induction x generalizing d with
  | nil => rfl
  | cons a x' ih =>
    rw [List.cons_append, List.getLastD_cons, ih a]
    cases y with
    | nil => exact absurd rfl hy
    | cons c rest => rw [List.getLastD_cons, List.getLastD_cons]

theorem dropWhile_ws_of_head {l : Str} (X : Str) (hne : l ≠ [])
    (hh : isPySpace (l.headD ' ') = false) :
    (l ++ X).dropWhile isPySpace = l ++ X := by
  cases l with
  | nil => exact absurd rfl hne
  | cons c rest =>
    simp only [List.headD_cons] at hh
    rw [List.cons_append, List.dropWhile_cons, hh]
    simp

theorem dropWhile_ws_space_cons {l : Str} (X : Str) (hne : l ≠ [])
    (hh : isPySpace (l.headD ' ') = false) :
    (' ' :: (l ++ X)).dropWhile isPySpace = l ++ X := by
  rw [List.dropWhile_cons]
  rw [show isPySpace ' ' = true from by decide]
  simpa using dropWhile_ws_of_head X hne hh

theorem minj_question {q Z : Str} {R : List RE} (hq_last : isPySpace (q.getLastD ' ') = false)
    (hq_noend : containsSub endMarker q = false)
    {j : Nat} (hj : j < q.length) :
    matchSeq (RE.wsStar :: RE.lit endMarker :: R)
      ((q ++ ' ' :: (endMarker ++ Z)).drop j) = none := by
  cases hm : matchSeq (RE.wsStar :: RE.lit endMarker :: R)
      ((q ++ ' ' :: (endMarker ++ Z)).drop j) with
  | none => rfl
  | some res =>
    exfalso
    rw [matchSeq_cons] at hm
    obtain ⟨a, s', heq, hws, h2⟩ := reStep_ws_inv hm
    rw [matchSeq_cons] at h2
    obtain ⟨s'', hs', _⟩ := reStep_lit_iff.mp h2
    subst hs'
    have hdropj : (q ++ ' ' :: (endMarker ++ Z)).drop j =
        q.drop j ++ ' ' :: (endMarker ++ Z) := by
      rw [List.drop_append_eq_append_drop, Nat.sub_eq_zero_of_le (Nat.le_of_lt hj),
        List.drop_zero]
    rw [hdropj] at heq
    have hzmem : q.getLastD ' ' ∈ q.drop j := getLastD_mem_drop ' ' hj
    rcases Nat.lt_or_ge a.length (q.drop j).length with hlt | hge
    · have hpfx : isPfx endMarker
          ((q.drop j ++ ' ' :: (endMarker ++ Z)).drop a.length) = true := by
        rw [heq, List.drop_left]
        exact isPfx_append_self _ _
      rw [List.drop_append_eq_append_drop, Nat.sub_eq_zero_of_le (Nat.le_of_lt hlt),
        List.drop_zero] at hpfx
      rcases Nat.lt_or_ge ((q.drop j).drop a.length).length 4 with hE4 | hE4
      · have hsp : (' ' : Char) ∈ endMarker := isPfx_through hpfx (by
          rw [show endMarker.length = 4 from rfl]
          exact hE4)
        exact absurd hsp (by decide)
      · have hpfxE : isPfx endMarker ((q.drop j).drop a.length) = true :=
          isPfx_of_append_left hpfx (by
            rw [show endMarker.length = 4 from rfl]
            exact hE4)
        have hcd : containsSub endMarker (q.drop j) = true :=
          containsSub_iff.mpr ⟨a.length, hpfxE⟩
        have : containsSub endMarker q = true := containsSub_drop hcd
        rw [this] at hq_noend
        exact absurd hq_noend (by simp)
    · have htake : q.drop j = a.take (q.drop j).length := by
        have h1 : (q.drop j ++ ' ' :: (endMarker ++ Z)).take (q.drop j).length =
            q.drop j := List.take_left _ _
        have h2 : (a ++ (endMarker ++ s'')).take (q.drop j).length =
            a.take (q.drop j).length := by
          rw [List.take_append_eq_append_take, Nat.sub_eq_zero_of_le hge,
            List.take_zero, List.append_nil]
        conv_lhs => rw [← h1, heq]
        exact h2
      have hzws : isPySpace (q.getLastD ' ') = true :=
        hws _ (List.mem_of_mem_take (htake ▸ hzmem))
      rw [hzws] at hq_last
      exact absurd hq_last (by simp)

theorem countNonWs_one_of_ws {a b : Str} {c : Char}
    (hwsa : ∀ x ∈ a, isPySpace x = true) (hwsb : ∀ x ∈ b, isPySpace x = true)
    (hc : isPySpace c = false) : countNonWs (a ++ c :: b) = 1 := by
  rw [countNonWs_append, countNonWs_cons, countNonWs_eq_zero hwsa,
    countNonWs_eq_zero hwsb, hc]
  simp

theorem minj_options {opts t : Str} {dCh : Char}
    (hlast : isPySpace (opts.getLastD ' ') = false)
    (hnoe : containsSub oeMarker opts = false)
    (hdig : isPyDigit dCh = true)
    {j : Nat} (hj : j < opts.length) :
    matchSeq [RE.wsStar, RE.digitGroup, RE.wsStar, RE.lit oeMarker]
      ((opts ++ '\n' :: dCh :: ' ' :: (oeMarker ++ t)).drop j) = none := by
  cases hm : matchSeq [RE.wsStar, RE.digitGroup, RE.wsStar, RE.lit oeMarker]
      ((opts ++ '\n' :: dCh :: ' ' :: (oeMarker ++ t)).drop j) with
  | none => rfl
  | some res =>
    exfalso
    rw [matchSeq_cons] at hm
    obtain ⟨a, s1, heq, hwsa, h2⟩ := reStep_ws_inv hm
    rw [matchSeq_cons] at h2
    obtain ⟨c, s2, caps1, hs1, hcd, h3, _⟩ := reStep_digit_inv h2
    rw [matchSeq_cons] at h3
    obtain ⟨b, s3, heq3, hwsb, h4⟩ := reStep_ws_inv h3
    rw [matchSeq_cons] at h4
    obtain ⟨s4, hs3, _⟩ := reStep_lit_iff.mp h4
    subst hs3
    subst heq3
    subst hs1
    -- heq : drop j (opts ++ X) = a ++ (c :: (b ++ (oeMarker ++ s4)))
    have hdropj : (opts ++ '\n' :: dCh :: ' ' :: (oeMarker ++ t)).drop j =
        opts.drop j ++ '\n' :: dCh :: ' ' :: (oeMarker ++ t) := by
      rw [List.drop_append_eq_append_drop, Nat.sub_eq_zero_of_le (Nat.le_of_lt hj),
        List.drop_zero]
    rw [hdropj] at heq
    have hzmem : opts.getLastD ' ' ∈ opts.drop j := getLastD_mem_drop ' ' hj
    have hDpos : 1 ≤ countNonWs (opts.drop j) := countNonWs_pos hzmem hlast
    have hacb : a ++ (c :: (b ++ (oeMarker ++ s4))) =
        (a ++ c :: b) ++ (oeMarker ++ s4) := by simp
    have hlen : (a ++ c :: b).length = a.length + 1 + b.length := by
      simp only [List.length_append, List.length_cons]
      omega
    rcases Nat.lt_or_ge (a.length + 1 + b.length) (opts.drop j).length with hlt | hge
    · -- the OptionsEnd: occurrence would sit inside the options text
      have hpfx : isPfx oeMarker
          ((opts.drop j ++ '\n' :: dCh :: ' ' :: (oeMarker ++ t)).drop
            (a.length + 1 + b.length)) = true := by
        rw [heq, hacb, List.drop_left' hlen]
        exact isPfx_append_self _ _
      rw [List.drop_append_eq_append_drop, Nat.sub_eq_zero_of_le (Nat.le_of_lt hlt),
        List.drop_zero] at hpfx
      rcases Nat.lt_or_ge ((opts.drop j).drop (a.length + 1 + b.length)).length 11
        with hE11 | hE11
      · have hnl : ('\n' : Char) ∈ oeMarker := isPfx_through hpfx (by
          rw [show oeMarker.length = 11 from rfl]
          exact hE11)
        exact absurd hnl (by decide)
      · have hpfxE : isPfx oeMarker
            ((opts.drop j).drop (a.length + 1 + b.length)) = true :=
          isPfx_of_append_left hpfx (by
            rw [show oeMarker.length = 11 from rfl]
            exact hE11)
        have hcd2 : containsSub oeMarker (opts.drop j) = true :=
          containsSub_iff.mpr ⟨a.length + 1 + b.length, hpfxE⟩
        have : containsSub oeMarker opts = true := containsSub_drop hcd2
        rw [this] at hnoe
        exact absurd hnoe (by simp)
    · rcases Nat.lt_or_ge (a.length + 1 + b.length) ((opts.drop j).length + 2)
        with hlt2 | hge2
      · -- the one digit sits where the text still has a line break or the digit
        have hpfx : isPfx oeMarker
            ((opts.drop j ++ '\n' :: dCh :: ' ' :: (oeMarker ++ t)).drop
              (a.length + 1 + b.length)) = true := by
          rw [heq, hacb, List.drop_left' hlen]
          exact isPfx_append_self _ _
        rcases Nat.eq_or_lt_of_le hge with heqm | hltm
        · -- m = |D|
          rw [← heqm, List.drop_left] at hpfx
          rw [show oeMarker = 'O' :: ['p', 't', 'i', 'o', 'n', 's', 'E', 'n', 'd', ':']
            from rfl] at hpfx
          simp [isPfx] at hpfx
        · -- m = |D| + 1
          have hm1 : a.length + 1 + b.length = (opts.drop j).length + 1 := by omega
          have hdrop1 : (opts.drop j ++ '\n' :: dCh :: ' ' :: (oeMarker ++ t)).drop
              ((opts.drop j).length + 1) = dCh :: ' ' :: (oeMarker ++ t) := by
            rw [List.drop_append_eq_append_drop, List.drop_of_length_le (by omega)]
            simp
          rw [hm1, hdrop1] at hpfx
          rw [show oeMarker = 'O' :: ['p', 't', 'i', 'o', 'n', 's', 'E', 'n', 'd', ':']
            from rfl] at hpfx
          simp only [isPfx, Bool.and_eq_true, beq_iff_eq] at hpfx
          rw [← hpfx.1] at hdig
          exact absurd hdig (by decide)
      · -- m ≥ |D| + 2 : at least two non-whitespace characters before the digit
        have htak : ((opts.drop j ++ '\n' :: dCh :: ' ' :: (oeMarker ++ t)).take
            (a.length + 1 + b.length)) = a ++ c :: b := by
          rw [heq, hacb, List.take_left' hlen]
        have hsplit : (opts.drop j ++ '\n' :: dCh :: ' ' :: (oeMarker ++ t)).take
            (a.length + 1 + b.length) =
            (opts.drop j ++ '\n' :: dCh :: ' ' :: (oeMarker ++ t)).take
              ((opts.drop j).length + 2) ++
            ((opts.drop j ++ '\n' :: dCh :: ' ' :: (oeMarker ++ t)).drop
              ((opts.drop j).length + 2)).take
                (a.length + 1 + b.length - ((opts.drop j).length + 2)) := by
          rw [← List.take_add]
          congr 1
          omega
        have htak2 : (opts.drop j ++ '\n' :: dCh :: ' ' :: (oeMarker ++ t)).take
            ((opts.drop j).length + 2) = opts.drop j ++ ['\n', dCh] := by
          rw [List.take_append_eq_append_take,
            List.take_of_length_le (by omega), Nat.add_sub_cancel_left]
          rfl
        have hcount1 : countNonWs (a ++ c :: b) = 1 :=
          countNonWs_one_of_ws hwsa hwsb (isPyDigit_not_space hcd)
        have hcount2 : 2 ≤ countNonWs ((opts.drop j ++
            '\n' :: dCh :: ' ' :: (oeMarker ++ t)).take (a.length + 1 + b.length)) := by
          rw [hsplit, htak2, countNonWs_append, countNonWs_append]
          have hdc : countNonWs ['\n', dCh] = 1 := by
            rw [countNonWs_cons, countNonWs_cons, isPyDigit_not_space hdig,
              show isPySpace '\n' = true from by decide]
            simp [countNonWs]
          omega
        rw [htak, hcount1] at hcount2
        omega

theorem isPyDigit_digitChar {i : Nat} (h : i ≤ 9) : isPyDigit (digitChar i) = true := by
  interval_cases i <;> decide

theorem digitVal_digitChar {i : Nat} (h : i ≤ 9) : digitVal (digitChar i) = i := by
  interval_cases i <;> decide

theorem headD_append {x y : Str} (hx : x ≠ []) (d : Char) :
    (x ++ y).headD d = x.headD d := by
  cases x with
  | nil => exact absurd rfl hx
  | cons c rest => rfl

theorem no_oe_of_no_end {o : Str} (h : containsSub endMarker o = false) :
    containsSub oeMarker o = false := by
  cases hc : containsSub oeMarker o with
  | false => rfl
  | true =>
    exfalso
    have : containsSub endMarker o = true :=
      containsSub_trans hc (by decide)
    rw [this] at h
    exact absurd h (by simp)

theorem no_sub_append_nl {w x y : Str} (hw : ('\n' : Char) ∉ w)
    (hx : containsSub w x = false) (hy : containsSub w y = false) :
    containsSub w (x ++ '\n' :: y) = false := by
  cases h : containsSub w (x ++ '\n' :: y) with
  | false => rfl
  | true =>
    exfalso
    rcases containsSub_append_cons h hw with h' | h'
    · rw [h'] at hx; exact absurd hx (by simp)
    · rw [h'] at hy; exact absurd hy (by simp)

theorem joinLines_four (o1 o2 o3 o4 : Str) :
    joinLines [o1, o2, o3, o4] = o1 ++ '\n' :: (o2 ++ '\n' :: (o3 ++ '\n' :: o4)) := rfl

theorem length_le_append (x y : Str) : x.length ≤ (x ++ y).length := by
  rw [List.length_append]
  exact Nat.le_add_right _ _

theorem matchSeq_mcq_block (b : MCQuestion) (hb : wfBlock b) (t : Str) :
    matchSeq mcqPattern (renderMCQ b ++ t) = some (mcqCaps b, t) := by
  obtain ⟨q, os, idx⟩ := b
  obtain ⟨hq, hlen, hos, hidx⟩ := hb
  simp only at hq hlen hos hidx
  rcases os with _ | ⟨o1, _ | ⟨o2, _ | ⟨o3, _ | ⟨o4, _ | ⟨o5, os'⟩⟩⟩⟩⟩ <;>
    simp only [List.length_cons, List.length_nil] at hlen
  · omega
  · omega
  · omega
  · omega
  · clear hlen
    obtain ⟨hq_ne, hq_head, hq_last, hq_noend⟩ := hq
    obtain ⟨⟨h1ne, h1head, h1last, h1noend⟩, h1nb⟩ := hos o1 (by simp)
    obtain ⟨⟨h2ne, h2head, h2last, h2noend⟩, h2nb⟩ := hos o2 (by simp)
    obtain ⟨⟨h3ne, h3head, h3last, h3noend⟩, h3nb⟩ := hos o3 (by simp)
    obtain ⟨⟨h4ne, h4head, h4last, h4noend⟩, h4nb⟩ := hos o4 (by simp)
    have hdig : isPyDigit (digitChar idx) = true := isPyDigit_digitChar hidx
    have hoptsne : o1 ++ '\n' :: (o2 ++ '\n' :: (o3 ++ '\n' :: o4)) ≠ [] := by
      cases o1 <;> simp
    have hoptshead :
        isPySpace ((o1 ++ '\n' :: (o2 ++ '\n' :: (o3 ++ '\n' :: o4))).headD ' ') = false := by
      rw [headD_append h1ne]
      exact h1head
    have hoptslast :
        isPySpace ((o1 ++ '\n' :: (o2 ++ '\n' :: (o3 ++ '\n' :: o4))).getLastD ' ') = false := by
      rw [getLastD_append (by simp), List.getLastD_cons,
        getLastD_append (by simp), List.getLastD_cons,
        getLastD_append (by simp), List.getLastD_cons,
        getLastD_irrel h4ne '\n' ' ']
      exact h4last
    have hnoe : containsSub oeMarker (o1 ++ '\n' :: (o2 ++ '\n' :: (o3 ++ '\n' :: o4))) =
        false := by
      refine no_sub_append_nl (by decide) (no_oe_of_no_end h1noend) ?_
      refine no_sub_append_nl (by decide) (no_oe_of_no_end h2noend) ?_
      exact no_sub_append_nl (by decide) (no_oe_of_no_end h3noend) (no_oe_of_no_end h4noend)
    set dCh := digitChar idx with hdCh
    set opts := o1 ++ '\n' :: (o2 ++ '\n' :: (o3 ++ '\n' :: o4)) with hopts
    have e1 : matchSeq [RE.lit oeMarker] (oeMarker ++ t) = some ([], t) := by
      rw [matchSeq_cons]
      exact reStep_lit_iff.mpr ⟨t, rfl, rfl⟩
    have e2 : matchSeq [RE.wsStar, RE.lit oeMarker] (' ' :: (oeMarker ++ t)) =
        some ([], t) := by
      rw [matchSeq_cons]
      apply reStep_ws_construct
      rw [dropWhile_ws_space_cons t (by decide) (by decide)]
      exact e1
    have e3 : matchSeq [RE.digitGroup, RE.wsStar, RE.lit oeMarker]
        (dCh :: ' ' :: (oeMarker ++ t)) = some ([[dCh]], t) := by
      rw [matchSeq_cons]
      exact reStep_digit_construct hdig e2
    have e4 : matchSeq [RE.wsStar, RE.digitGroup, RE.wsStar, RE.lit oeMarker]
        ('\n' :: dCh :: ' ' :: (oeMarker ++ t)) = some ([[dCh]], t) := by
      rw [matchSeq_cons]
      apply reStep_ws_construct
      have hdw : ('\n' :: dCh :: ' ' :: (oeMarker ++ t)).dropWhile isPySpace =
          dCh :: ' ' :: (oeMarker ++ t) := by
        rw [List.dropWhile_cons, if_pos (by decide), List.dropWhile_cons,
          if_neg (by simp [isPyDigit_not_space hdig])]
      rw [hdw]
      exact e3
    have e5 : matchSeq
        [RE.lazyStar, RE.wsStar, RE.digitGroup, RE.wsStar, RE.lit oeMarker]
        (opts ++ '\n' :: dCh :: ' ' :: (oeMarker ++ t)) = some ([opts, [dCh]], t) := by
      rw [matchSeq_cons]
      have hc := reStep_lazy_construct
        (k := matchSeq [RE.wsStar, RE.digitGroup, RE.wsStar, RE.lit oeMarker])
        (s := opts ++ '\n' :: dCh :: ' ' :: (oeMarker ++ t)) opts.length
        (length_le_append _ _)
        (fun j hj => minj_options hoptslast hnoe hdig hj)
        (by rw [List.drop_left]; exact e4)
      rw [List.take_left] at hc
      exact hc
    have e6 : matchSeq
        [RE.wsStar, RE.lazyStar, RE.wsStar, RE.digitGroup, RE.wsStar, RE.lit oeMarker]
        (' ' :: (opts ++ '\n' :: dCh :: ' ' :: (oeMarker ++ t))) =
        some ([opts, [dCh]], t) := by
      rw [matchSeq_cons]
      apply reStep_ws_construct
      rw [dropWhile_ws_space_cons _ hoptsne hoptshead]
      exact e5
    have e7 : matchSeq
        (RE.lit osMarker ::
          [RE.wsStar, RE.lazyStar, RE.wsStar, RE.digitGroup, RE.wsStar, RE.lit oeMarker])
        (osMarker ++ (' ' :: (opts ++ '\n' :: dCh :: ' ' :: (oeMarker ++ t)))) =
        some ([opts, [dCh]], t) := by
      rw [matchSeq_cons]
      exact reStep_lit_iff.mpr ⟨_, rfl, e6⟩
    have e8 : matchSeq
        (RE.wsStar :: RE.lit osMarker ::
          [RE.wsStar, RE.lazyStar, RE.wsStar, RE.digitGroup, RE.wsStar, RE.lit oeMarker])
        (' ' :: (osMarker ++ (' ' :: (opts ++ '\n' :: dCh :: ' ' :: (oeMarker ++ t))))) =
        some ([opts, [dCh]], t) := by
      rw [matchSeq_cons]
      apply reStep_ws_construct
      rw [dropWhile_ws_space_cons _ (by decide) (by decide)]
      exact e7
    have e9 : matchSeq
        (RE.lit endMarker :: RE.wsStar :: RE.lit osMarker ::
          [RE.wsStar, RE.lazyStar, RE.wsStar, RE.digitGroup, RE.wsStar, RE.lit oeMarker])
        (endMarker ++
          (' ' :: (osMarker ++ (' ' :: (opts ++ '\n' :: dCh :: ' ' :: (oeMarker ++ t)))))) =
        some ([opts, [dCh]], t) := by
      rw [matchSeq_cons]
      exact reStep_lit_iff.mpr ⟨_, rfl, e8⟩
    have e10 : matchSeq
        (RE.wsStar :: RE.lit endMarker :: RE.wsStar :: RE.lit osMarker ::
          [RE.wsStar, RE.lazyStar, RE.wsStar, RE.digitGroup, RE.wsStar, RE.lit oeMarker])
        (' ' :: (endMarker ++
          (' ' :: (osMarker ++ (' ' :: (opts ++ '\n' :: dCh :: ' ' :: (oeMarker ++ t))))))) =
        some ([opts, [dCh]], t) := by
      rw [matchSeq_cons]
      apply reStep_ws_construct
      rw [dropWhile_ws_space_cons _ (by decide) (by decide)]
      exact e9
    have e11 : matchSeq
        (RE.lazyStar :: RE.wsStar :: RE.lit endMarker :: RE.wsStar :: RE.lit osMarker ::
          [RE.wsStar, RE.lazyStar, RE.wsStar, RE.digitGroup, RE.wsStar, RE.lit oeMarker])
        (q ++ ' ' :: (endMarker ++
          (' ' :: (osMarker ++ (' ' :: (opts ++ '\n' :: dCh :: ' ' :: (oeMarker ++ t))))))) =
        some ([q, opts, [dCh]], t) := by
      rw [matchSeq_cons]
      have hc := reStep_lazy_construct
        (s := q ++ ' ' :: (endMarker ++
          (' ' :: (osMarker ++ (' ' :: (opts ++ '\n' :: dCh :: ' ' :: (oeMarker ++ t)))))))
        q.length
        (length_le_append _ _)
        (fun j hj => minj_question hq_last hq_noend hj)
        (by rw [List.drop_left]; exact e10)
      rw [List.take_left] at hc
      exact hc
    have e12 : matchSeq
        (RE.wsStar :: RE.lazyStar :: RE.wsStar :: RE.lit endMarker :: RE.wsStar ::
          RE.lit osMarker ::
          [RE.wsStar, RE.lazyStar, RE.wsStar, RE.digitGroup, RE.wsStar, RE.lit oeMarker])
        (' ' :: (q ++ ' ' :: (endMarker ++
          (' ' :: (osMarker ++ (' ' :: (opts ++ '\n' :: dCh :: ' ' :: (oeMarker ++ t)))))))) =
        some ([q, opts, [dCh]], t) := by
      rw [matchSeq_cons]
      apply reStep_ws_construct
      have hdw : (' ' :: (q ++ ' ' :: (endMarker ++
            (' ' :: (osMarker ++
              (' ' :: (opts ++ '\n' :: dCh :: ' ' :: (oeMarker ++ t)))))))).dropWhile
          isPySpace =
          q ++ ' ' :: (endMarker ++
            (' ' :: (osMarker ++ (' ' :: (opts ++ '\n' :: dCh :: ' ' :: (oeMarker ++ t)))))) :=
        dropWhile_ws_space_cons _ hq_ne hq_head
      rw [hdw]
      exact e11
    have e13 : matchSeq mcqPattern
        (startMarker ++ (' ' :: (q ++ ' ' :: (endMarker ++
          (' ' :: (osMarker ++ (' ' :: (opts ++ '\n' :: dCh :: ' ' :: (oeMarker ++ t))))))))) =
        some ([q, opts, [dCh]], t) := by
      rw [show mcqPattern = RE.lit startMarker ::
        (RE.wsStar :: RE.lazyStar :: RE.wsStar :: RE.lit endMarker :: RE.wsStar ::
          RE.lit osMarker ::
          [RE.wsStar, RE.lazyStar, RE.wsStar, RE.digitGroup, RE.wsStar, RE.lit oeMarker])
        from rfl]
      rw [matchSeq_cons]
      exact reStep_lit_iff.mpr ⟨_, rfl, e12⟩
    have hre : renderMCQ
        { question := q, options := [o1, o2, o3, o4], correctOptionIndex := idx } ++ t =
        startMarker ++ (' ' :: (q ++ ' ' :: (endMarker ++
          (' ' :: (osMarker ++ (' ' :: (opts ++ '\n' :: dCh :: ' ' :: (oeMarker ++ t)))))))) := by
      simp [renderMCQ, hopts, joinLines_four, List.cons_append, List.append_assoc]
    rw [hre]
    exact e13
  · omega

theorem matchSeq_mcq_nil : matchSeq mcqPattern [] = none := by decide

theorem renderMCQ_ne_nil (b : MCQuestion) : renderMCQ b ≠ [] := by
  simp [renderMCQ, startMarker]

theorem findAllGoF_blocks : ∀ (bs : List MCQuestion), (∀ b ∈ bs, wfBlock b) →
    ∀ fuel, (concatBlocks bs).length ≤ fuel →
      findAllGoF mcqPattern fuel (concatBlocks bs) = bs.map mcqCaps := by
  intro bs
  induction bs with
  | nil =>
    intro _ fuel _
    show findAllGoF mcqPattern fuel [] = []
    cases fuel <;> simp [findAllGoF, matchSeq_mcq_nil]
  | cons b bs ih =>
    intro hwf fuel hfuel
    have hmatch := matchSeq_mcq_block b (hwf b (by simp)) (concatBlocks bs)
    have hne : renderMCQ b ≠ [] := renderMCQ_ne_nil b
    have hlen1 : 1 ≤ (renderMCQ b).length := List.length_pos.mpr hne
    show findAllGoF mcqPattern fuel (concatBlocks (b :: bs)) = _
    rw [show concatBlocks (b :: bs) = renderMCQ b ++ concatBlocks bs from rfl] at hfuel ⊢
    cases hc : renderMCQ b ++ concatBlocks bs with
    | nil => exact absurd (List.append_eq_nil.mp hc).1 hne
    | cons c cs =>
      rw [hc] at hfuel hmatch
      have hlens : (renderMCQ b).length + (concatBlocks bs).length = cs.length + 1 := by
        have h := congrArg List.length hc
        simpa [List.length_append, Nat.add_comm] using h
      cases fuel with
      | zero => simp at hfuel
      | succ fuel =>
        rw [findAllGoF]
        simp only [hmatch]
        rw [if_pos (show (concatBlocks bs).length ≤ cs.length by omega)]
        rw [List.map_cons]
        congr 1
        refine ih (fun x hx => hwf x (by simp [hx])) fuel ?_
        simp only [List.length_cons] at hfuel
        omega

theorem filterMap_of_forall_some {f : List Str → Option MCQuestion} :
    ∀ bs : List MCQuestion, (∀ b ∈ bs, f (mcqCaps b) = some b) →
      List.filterMap f (bs.map mcqCaps) = bs := by
  intro bs
  induction bs with
  | nil => intro _; rfl
  | cons b bs ih =>
    intro h
    rw [List.map_cons, List.filterMap_cons, h b (by simp),
      ih (fun x hx => h x (by simp [hx]))]

theorem splitlines_four {o1 o2 o3 o4 : Str}
    (h1 : ∀ x ∈ o1, isLineBreak x = false) (h2 : ∀ x ∈ o2, isLineBreak x = false)
    (h3 : ∀ x ∈ o3, isLineBreak x = false) (h4 : ∀ x ∈ o4, isLineBreak x = false)
    (h4ne : o4 ≠ []) :
    splitlines (o1 ++ '\n' :: (o2 ++ '\n' :: (o3 ++ '\n' :: o4))) = [o1, o2, o3, o4] := by
  unfold splitlines
  rw [splitlinesGo_join _ [] h1, splitlinesGo_join _ [] h2, splitlinesGo_join _ [] h3,
    splitlinesGo_no_break [] h4 (by simpa using h4ne)]
  simp

theorem parse_one_block (b : MCQuestion) (hb : wfBlock b) :
    (fun caps =>
      match caps with
      | [qc, oc, dc] =>
        let question_text := pyStrip qc
        let options_text := pyStrip oc
        let correct_index := capDigitVal dc
        let options := (splitlines options_text).filterMap fun opt =>
          if pyStrip opt = [] then none else some (pyStrip opt)
        if options.length = 4 then
          some { question := question_text, options := options,
                 correctOptionIndex := correct_index }
        else none
      | _ => none) (mcqCaps b) = some b := by
  obtain ⟨q, os, idx⟩ := b
  obtain ⟨hq, hlen, hos, hidx⟩ := hb
  simp only at hq hlen hos hidx
  rcases os with _ | ⟨o1, _ | ⟨o2, _ | ⟨o3, _ | ⟨o4, _ | ⟨o5, os'⟩⟩⟩⟩⟩ <;>
    simp only [List.length_cons, List.length_nil] at hlen
  · omega
  · omega
  · omega
  · omega
  · clear hlen
    obtain ⟨hq_ne, hq_head, hq_last, hq_noend⟩ := hq
    obtain ⟨⟨h1ne, h1head, h1last, h1noend⟩, h1nb⟩ := hos o1 (by simp)
    obtain ⟨⟨h2ne, h2head, h2last, h2noend⟩, h2nb⟩ := hos o2 (by simp)
    obtain ⟨⟨h3ne, h3head, h3last, h3noend⟩, h3nb⟩ := hos o3 (by simp)
    obtain ⟨⟨h4ne, h4head, h4last, h4noend⟩, h4nb⟩ := hos o4 (by simp)
    have hoptshead :
        isPySpace ((o1 ++ '\n' :: (o2 ++ '\n' :: (o3 ++ '\n' :: o4))).headD ' ') = false := by
      rw [headD_append h1ne]
      exact h1head
    have hoptslast :
        isPySpace ((o1 ++ '\n' :: (o2 ++ '\n' :: (o3 ++ '\n' :: o4))).getLastD ' ') = false := by
      rw [getLastD_append (by simp), List.getLastD_cons,
        getLastD_append (by simp), List.getLastD_cons,
        getLastD_append (by simp), List.getLastD_cons,
        getLastD_irrel h4ne '\n' ' ']
      exact h4last
    have hstripopts : pyStrip (o1 ++ '\n' :: (o2 ++ '\n' :: (o3 ++ '\n' :: o4))) =
        o1 ++ '\n' :: (o2 ++ '\n' :: (o3 ++ '\n' :: o4)) :=
      pyStrip_eq_self hoptshead hoptslast
    have hsplit : splitlines (o1 ++ '\n' :: (o2 ++ '\n' :: (o3 ++ '\n' :: o4))) =
        [o1, o2, o3, o4] := splitlines_four h1nb h2nb h3nb h4nb h4ne
    have hs1 : pyStrip o1 = o1 := pyStrip_eq_self h1head h1last
    have hs2 : pyStrip o2 = o2 := pyStrip_eq_self h2head h2last
    have hs3 : pyStrip o3 = o3 := pyStrip_eq_self h3head h3last
    have hs4 : pyStrip o4 = o4 := pyStrip_eq_self h4head h4last
    have hfm : ([o1, o2, o3, o4].filterMap fun opt =>
        if pyStrip opt = [] then none else some (pyStrip opt)) = [o1, o2, o3, o4] := by
      rw [List.filterMap_cons, List.filterMap_cons, List.filterMap_cons,
        List.filterMap_cons, List.filterMap_nil]
      rw [hs1, hs2, hs3, hs4]
      rw [if_neg h1ne, if_neg h2ne, if_neg h3ne, if_neg h4ne]
    simp only [mcqCaps, joinLines_four]
    rw [hstripopts]
    simp only [hsplit, hfm]
    rw [if_pos (by simp)]
    rw [pyStrip_eq_self hq_head hq_last]
    rw [show capDigitVal [digitChar idx] = digitVal (digitChar idx) from rfl,
      digitVal_digitChar hidx]
  · omega

theorem parse_questions_blocks (bs : List MCQuestion) (hwf : ∀ b ∈ bs, wfBlock b) :
    parse_questions (concatBlocks bs) = bs := by
  unfold parse_questions
  rw [show reFindall mcqPattern (concatBlocks bs) = bs.map mcqCaps from
    findAllGoF_blocks bs hwf _ (Nat.le_refl _)]
  exact filterMap_of_forall_some bs (fun b hb => parse_one_block b (hwf b hb))

/-- C4: for every input consisting of well-formed multiple-choice blocks with
exactly 4 option lines each, `parse_questions` returns exactly one record per
block, in block order, with question, options and trailing digit mapped
exactly from the input; in particular on
`"Start: Q1 End: OptionsStart: A\nB\nC\nD\n2 OptionsEnd:"` it returns the
single record `{question := "Q1", options := ["A","B","C","D"],
correctOptionIndex := 2}`. -/
theorem claim_C4_well_formed_blocks :
    (∀ bs : List MCQuestion, (∀ b ∈ bs, wfBlock b) →
      parse_questions (concatBlocks bs) = bs) ∧
    parse_questions ("Start: Q1 End: OptionsStart: A\nB\nC\nD\n2 OptionsEnd:").toList =
      [{ question := ['Q', '1'], options := [['A'], ['B'], ['C'], ['D']],
         correctOptionIndex := 2 }] :=
  ⟨parse_questions_blocks, by decide⟩

/-- C4 witness: round-trip of a two-block list of concrete well-formed
blocks. -/
theorem claim_C4_well_formed_blocks_witness :
    parse_questions (concatBlocks
      [{ question := ['Q', '1'], options := [['A'], ['B'], ['C'], ['D']],
         correctOptionIndex := 2 },
       { question := ['Q', '2'], options := [['w'], ['x'], ['y'], ['z']],
         correctOptionIndex := 0 }]) =
      [{ question := ['Q', '1'], options := [['A'], ['B'], ['C'], ['D']],
         correctOptionIndex := 2 },
       { question := ['Q', '2'], options := [['w'], ['x'], ['y'], ['z']],
         correctOptionIndex := 0 }] :=
  claim_C4_well_formed_blocks.1 _ (by decide)
